import Mathlib

/-!
Byte patterns with wildcards and repeats (`pattern.go`).

A shallow embedding of the Go package `bytepattern`.

Conventions of the embedding:

* a Go `string` / `[]byte` is the list of its bytes (`List Nat`, each entry below 256 for a
  real string); text literals are written with `str`;
* `int32` fields are `Int`; the one narrowing conversion that can lose information
  (`int32(n)` on the result of `strconv.Atoi`) is written out with `wrap32`;
* Go `int` is 64 bits wide and is modelled by `Int`; a running total of `int32` repeat counts
  needs more than `2^32` elements to leave the 64-bit range, so sums are not wrapped;
* a run-time panic (index out of range) is the result `none`.
-/

namespace BytePattern

/-! ## Data model -/

/-- One pattern element: `value` is a byte or `-1` (wildcard), `times` the repeat count. -/
structure PatternEl where
  value : Int
  times : Int
deriving DecidableEq, Repr

/-- A pattern is the ordered sequence of its elements. -/
structure Pattern where
  elements : List PatternEl
deriving DecidableEq, Repr

/-- `Pattern.Length`: the loop `total += int(el.times)` over the elements. -/
def Pattern.Length (p : Pattern) : Int :=
  p.elements.foldl (fun total el => total + el.times) 0

/-- The expanded positions of an element list: each element contributes `times` copies of its
value (no copy when `times` is not positive, as in `for k := 0; k < int(el.times); k++`). -/
def expandEls : List PatternEl → List Int
  | [] => []
  | el :: rest => List.replicate el.times.toNat el.value ++ expandEls rest

/-- The expanded positions of a pattern. -/
def expand (p : Pattern) : List Int := expandEls p.elements

/-! ## Find -/

/-- Outcome of walking pattern positions over the buffer inside `Find`. -/
inductive Scan where
  | panic : Scan
  | mismatch : Scan
  | next (bufIdx : Nat) : Scan
deriving DecidableEq, Repr

/-- Inner loop of `Find` for one element, `k` iterations left: read `buffer[bufIdx]` (panics
when out of range), break with `match = false` on a concrete value that differs. -/
def findEl (value : Int) (buffer : List Nat) : Nat → Nat → Scan
  | 0, bufIdx => Scan.next bufIdx
  | k + 1, bufIdx =>
    match buffer[bufIdx]? with
    | none => Scan.panic
    | some b =>
      if value ≠ -1 ∧ value ≠ (b : Int) then Scan.mismatch
      else findEl value buffer k (bufIdx + 1)

/-- The loop `for _, el := range p.elements` of `Find` for one candidate offset. -/
def findEls (buffer : List Nat) : List PatternEl → Nat → Scan
  | [], bufIdx => Scan.next bufIdx
  | el :: rest, bufIdx =>
    match findEl el.value buffer el.times.toNat bufIdx with
    | Scan.next idx => findEls buffer rest idx
    | Scan.mismatch => Scan.mismatch
    | Scan.panic => Scan.panic

/-- The outer loop `for i := 0; i <= len(buffer)-patLen; i++` with `n` candidates left. -/
def findLoop (p : Pattern) (buffer : List Nat) : Nat → Nat → Option Int
  | 0, _ => some (-1)
  | n + 1, i =>
    match findEls buffer p.elements i with
    | Scan.panic => none
    | Scan.next _ => some (i : Int)
    | Scan.mismatch => findLoop p buffer n (i + 1)

/-- `Pattern.Find`; `none` is an index-out-of-range panic. -/
def Pattern.Find (p : Pattern) (buffer : List Nat) : Option Int :=
  let patLen := p.Length
  if patLen = 0 ∨ (buffer.length : Int) < patLen then some (-1)
  else findLoop p buffer ((buffer.length : Int) - patLen + 1).toNat 0

/-! ## Patch -/

/-- The conversion `byte(v)` of an `int32`. -/
def toByte (v : Int) : Nat := (v % 256).toNat

/-- Inner loop of `Patch` for one element, `n` iterations left. The result is the buffer and the
write cursor, or `none` when `buffer[bufIdx] = ...` is out of range. -/
def patchEl (value : Int) : Nat → List Nat → Int → Option (List Nat × Int)
  | 0, buffer, bufIdx => some (buffer, bufIdx)
  | n + 1, buffer, bufIdx =>
    if value ≠ -1 then
      if 0 ≤ bufIdx ∧ bufIdx < (buffer.length : Int) then
        patchEl value n (buffer.set bufIdx.toNat (toByte value)) (bufIdx + 1)
      else none
    else patchEl value n buffer (bufIdx + 1)

/-- The loop `for _, el := range p.elements` of `Patch`. -/
def patchEls : List PatternEl → List Nat → Int → Option (List Nat × Int)
  | [], buffer, bufIdx => some (buffer, bufIdx)
  | el :: rest, buffer, bufIdx =>
    match patchEl el.value el.times.toNat buffer bufIdx with
    | none => none
    | some (buffer1, idx) => patchEls rest buffer1 idx

/-- `Pattern.Patch`: the buffer after the call, or `none` for an index-out-of-range panic. -/
def Pattern.Patch (p : Pattern) (buffer : List Nat) (offset : Int) : Option (List Nat) :=
  (patchEls p.elements buffer offset).map Prod.fst

/-! ## Specification vocabulary for the matcher -/

/-- A pattern position matches a byte: a wildcard matches anything, a concrete value an equal
byte. -/
def posMatches (v : Int) (b : Nat) : Prop := v = -1 ∨ v = (b : Int)

/-- Every expanded position of the pattern matches the buffer byte at offset `i` plus the
position (which in particular has to exist). -/
def MatchesAt (p : Pattern) (buffer : List Nat) (i : Nat) : Prop :=
  ∀ j v, (expand p)[j]? = some v → ∃ b, buffer[i + j]? = some b ∧ posMatches v b

/-! ## Flat walks used in the proofs -/

/-- The walk of `Find` over a flat list of position values: `none` is a panic, `some false` a
mismatch, `some true` a match of every position. -/
def findFlat (buffer : List Nat) : List Int → Nat → Option Bool
  | [], _ => some true
  | v :: vs, idx =>
    match buffer[idx]? with
    | none => none
    | some b => if v ≠ -1 ∧ v ≠ (b : Int) then some false else findFlat buffer vs (idx + 1)

/-- Translation of a flat walk result into a `Scan`. -/
def scanOf (r : Option Bool) (idx : Nat) : Scan :=
  match r with
  | none => Scan.panic
  | some false => Scan.mismatch
  | some true => Scan.next idx

/-- The walk of `Patch` over a flat list of position values. -/
def patchFlat : List Int → List Nat → Int → Option (List Nat)
  | [], buffer, _ => some buffer
  | v :: vs, buffer, idx =>
    if v ≠ -1 then
      if 0 ≤ idx ∧ idx < (buffer.length : Int) then
        patchFlat vs (buffer.set idx.toNat (toByte v)) (idx + 1)
      else none
    else patchFlat vs buffer (idx + 1)

/-! ## Concrete patterns used in examples -/

/-- The pattern of `TestFind`, `"01 02 ??[2] 05"`. -/
def findTestPattern : Pattern := ⟨[⟨1, 1⟩, ⟨2, 1⟩, ⟨-1, 2⟩, ⟨5, 1⟩]⟩

/-- The pattern of `TestPatch`, `"AA ??[2] BB"`. -/
def patchTestPattern : Pattern := ⟨[⟨0xAA, 1⟩, ⟨-1, 2⟩, ⟨0xBB, 1⟩]⟩

/-- A pattern with a negative repeat count followed by `BB[2]`. -/
def negRepeatPattern : Pattern := ⟨[⟨0xAA, -1⟩, ⟨0xBB, 2⟩]⟩

/-- The pattern `"AA ??"`: a concrete byte followed by one wildcard. -/
def trailingWildcardPattern : Pattern := ⟨[⟨0xAA, 1⟩, ⟨-1, 1⟩]⟩

/-! ## Text -/

/-- The bytes of an ASCII text literal (for ASCII the code points are the UTF-8 bytes). -/
def str (s : String) : List Nat := s.toList.map Char.toNat

/-- The errors of `tokenize` and `FromHexString`, one constructor per message. `outOfFuel` is
not a Go error: it marks the exhaustion of the recursion bound of `tokenizeLoop`, which never
happens (`tokenize_fuel`). -/
inductive ParseError where
  | unclosedRepeat (pos : Nat)
  | incompleteHex (pos : Nat)
  | repeatWithoutElement
  | invalidRepeat (tok : List Nat)
  | invalidHex (tok : List Nat)
  | outOfFuel
deriving DecidableEq, Repr

/-- `strings.ReplaceAll(input, " ", "")`. -/
def removeSpaces (input : List Nat) : List Nat := input.filter (fun c => c ≠ 32)

/-- The scan `for j < len(input) && input[j] != ']' { j++ }` started right after a `[`: the text
before the first `]` and the text after it, or `none` when there is no `]`. -/
def scanClose : List Nat → Option (List Nat × List Nat)
  | [] => none
  | c :: cs =>
    if c = 93 then some ([], cs)
    else
      match scanClose cs with
      | none => none
      | some (d, rest) => some (c :: d, rest)

/-- Put a token in front of the tokens of the rest of the input (`tokens = append(tokens, tok)`
followed by the remaining iterations); an error of the remaining iterations is returned. -/
def consTok (tok : List Nat) :
    Except ParseError (List (List Nat)) → Except ParseError (List (List Nat))
  | Except.ok toks => Except.ok (tok :: toks)
  | Except.error e => Except.error e

/-- The loop of `tokenize` at index `i`, on the remaining text `input[i:]`. The first argument
bounds the number of iterations. -/
def tokenizeLoop : Nat → Nat → List Nat → Except ParseError (List (List Nat))
  | _, _, [] => Except.ok []
  | 0, _, _ :: _ => Except.error ParseError.outOfFuel
  | fuel + 1, i, c :: cs =>
    if c = 63 ∧ cs.head? = some 63 then
      consTok [63, 63] (tokenizeLoop fuel (i + 2) cs.tail)
    else if c = 91 then
      match scanClose cs with
      | none => Except.error (ParseError.unclosedRepeat i)
      | some (d, rest) =>
        consTok (91 :: d ++ [93]) (tokenizeLoop fuel (i + d.length + 2) rest)
    else
      match cs with
      | [] => Except.error (ParseError.incompleteHex i)
      | c2 :: rest => consTok [c, c2] (tokenizeLoop fuel (i + 2) rest)

/-- `tokenize`: remove the spaces, then scan from index 0. Every iteration consumes at least
one byte, so the length of the text bounds the number of iterations. -/
def tokenize (input : List Nat) : Except ParseError (List (List Nat)) :=
  tokenizeLoop (removeSpaces input).length 0 (removeSpaces input)

/-! ## Number conversions of the Go standard library -/

/-- A decimal digit `'0'..'9'`. -/
def isDigit (c : Nat) : Bool := 48 ≤ c && c ≤ 57

/-- The number written by a list of decimal digits, most significant first. -/
def decValue (ds : List Nat) : Nat := ds.foldl (fun acc c => acc * 10 + (c - 48)) 0

/-- The digits of `strconv.Atoi`'s argument after an optional sign, with the sign. -/
def splitSign (s : List Nat) : Bool × List Nat :=
  match s with
  | [] => (false, [])
  | c :: rest => if c = 43 then (false, rest) else if c = 45 then (true, rest) else (false, s)

/-- `strconv.Atoi` on a 64-bit platform: an optional sign `+` or `-`, then one or more decimal
digits; `none` for a syntax error or a value outside `-2^63 .. 2^63-1`. -/
def Atoi (s : List Nat) : Option Int :=
  let sd := splitSign s
  if sd.2 = [] then none
  else if ¬ sd.2.all isDigit then none
  else
    let un := decValue sd.2
    if sd.1 then (if un > 2 ^ 63 then none else some (-(un : Int)))
    else (if un ≥ 2 ^ 63 then none else some (un : Int))

/-- The value of a hexadecimal digit `0-9`, `a-f`, `A-F`. -/
def hexVal (c : Nat) : Option Nat :=
  if 48 ≤ c ∧ c ≤ 57 then some (c - 48)
  else if 97 ≤ c ∧ c ≤ 102 then some (c - 87)
  else if 65 ≤ c ∧ c ≤ 70 then some (c - 55)
  else none

/-- The value of a list of hexadecimal digits, `none` when one is no hexadecimal digit. -/
def hexValue : List Nat → Nat → Option Nat
  | [], acc => some acc
  | c :: cs, acc =>
    match hexVal c with
    | none => none
    | some d => hexValue cs (acc * 16 + d)

/-- `strconv.ParseUint(tok, 16, 8)`: one or more hexadecimal digits (no sign, no prefix, no
underscore) with a value of at most 255. -/
def ParseUint (tok : List Nat) : Option Nat :=
  if tok = [] then none
  else
    match hexValue tok 0 with
    | none => none
    | some v => if v > 255 then none else some v

/-- The conversion `int32(n)` of a 64-bit `int`: the low 32 bits, read as a signed number. -/
def wrap32 (n : Int) : Int := (n + 2 ^ 31) % 2 ^ 32 - 2 ^ 31

/-! ## Construction -/

/-- The assignment `p.elements[lastIdx].times = t`. `lastIdx` is the index of the last element
whenever this is reached (`buildStep_lastIdx`), so the index is in range. -/
def setTimesAt : List PatternEl → Nat → Int → List PatternEl
  | [], _, _ => []
  | el :: rest, 0, t => { el with times := t } :: rest
  | el :: rest, i + 1, t => el :: setTimesAt rest i t

/-- The assignment `p.elements[lastIdx].times = t` with the index of type `int`. -/
def setTimes (elements : List PatternEl) (lastIdx : Int) (t : Int) : List PatternEl :=
  setTimesAt elements lastIdx.toNat t

/-- The loop `for _, tok := range tokens` of `FromHexString` on the state `p.elements`,
`lastIdx`: the elements when the loop ends or returns, and the error returned, if any. -/
def buildLoop : List (List Nat) → List PatternEl → Int → List PatternEl × Option ParseError
  | [], elements, _ => (elements, none)
  | tok :: toks, elements, lastIdx =>
    if tok.head? = some 91 then
      if lastIdx = -1 then (elements, some ParseError.repeatWithoutElement)
      else
        match Atoi (tok.drop 1).dropLast with
        | none => (elements, some (ParseError.invalidRepeat tok))
        | some n =>
          if n < 1 then (elements, some (ParseError.invalidRepeat tok))
          else buildLoop toks (setTimes elements lastIdx (wrap32 n)) lastIdx
    else if tok = [63, 63] then
      buildLoop toks (elements ++ [⟨-1, 1⟩]) (lastIdx + 1)
    else
      match ParseUint tok with
      | none => (elements, some (ParseError.invalidHex tok))
      | some b => buildLoop toks (elements ++ [⟨(b : Int), 1⟩]) (lastIdx + 1)

/-- `Pattern.FromHexString`: the value of `p.elements` after the call and the returned error
(`none` for `nil`). The elements the receiver held before are dropped by `p.elements = nil`. -/
def FromHexString (input : List Nat) : List PatternEl × Option ParseError :=
  match tokenize input with
  | Except.error e => ([], some e)
  | Except.ok tokens => buildLoop tokens [] (-1)

/-- `Parse`: the returned pattern and error. -/
def Parse (s : List Nat) : Pattern × Option ParseError :=
  (⟨(FromHexString s).1⟩, (FromHexString s).2)

/-- `Pattern.FromArgs`: `FromHexString(strings.Join(args, ""))`. -/
def FromArgs (args : List (List Nat)) : List PatternEl × Option ParseError :=
  FromHexString args.flatten

/-- `Pattern.FromBytes`: the elements after the call. -/
def FromBytes (input : List Nat) : List PatternEl :=
  input.map (fun (b : Nat) => (⟨(b : Int), 1⟩ : PatternEl))

/-- `Pattern.FromAnsiString`. The argument is the sequence of code points that
`for _, c := range s` yields for the string; each becomes `int32(c)`, and a `rune` is an
`int32` already. -/
def FromAnsiString (s : List Nat) : List PatternEl :=
  s.map (fun (c : Nat) => (⟨(c : Int), 1⟩ : PatternEl))

/-- `Pattern.FromWideString`, on the code points of the string. -/
def FromWideString : List Nat → List PatternEl
  | [] => []
  | c :: cs => ⟨(c : Int), 1⟩ :: ⟨0, 1⟩ :: FromWideString cs

/-! ## Rendering -/

/-- The digits of `n` in base `b`, least significant first; the first argument bounds the
number of digits. -/
def lsdDigits (b : Nat) : Nat → Nat → List Nat
  | 0, _ => []
  | fuel + 1, n => if n < b then [n] else n % b :: lsdDigits b fuel (n / b)

/-- The digits of `n` in base `b`, most significant first. -/
def digitsOf (b n : Nat) : List Nat := (lsdDigits b (n + 1) n).reverse

/-- The character of a digit below 16, upper case. -/
def digitChar (d : Nat) : Nat := if d < 10 then 48 + d else 55 + d

/-- The verb `%d` on a non-negative number. -/
def fmtNatDec (n : Nat) : List Nat := (digitsOf 10 n).map digitChar

/-- The verb `%d` of `fmt.Sprintf`. -/
def fmtDec (v : Int) : List Nat :=
  if v < 0 then 45 :: fmtNatDec v.natAbs else fmtNatDec v.natAbs

/-- The verb `%02X` of `fmt.Sprintf`: upper-case hexadecimal digits, padded with zeros to two
characters; a negative number is written with a minus sign, which counts for the width. -/
def fmt02X (v : Int) : List Nat :=
  let ds := (digitsOf 16 v.natAbs).map digitChar
  if v < 0 then 45 :: ds
  else if ds.length < 2 then 48 :: ds
  else ds

/-- The text `val` of one element in `String`. -/
def elText (el : PatternEl) : List Nat :=
  (if el.value = -1 then [63, 63] else fmt02X el.value) ++
    (if el.times > 1 then 91 :: fmtDec el.times ++ [93] else [])

/-- The white space of `strings.TrimSpace` among ASCII bytes. -/
def isSpaceByte (c : Nat) : Bool :=
  c = 9 || c = 10 || c = 11 || c = 12 || c = 13 || c = 32

/-- `strings.TrimSpace` on ASCII text (what `String` builds is ASCII). -/
def TrimSpace (s : List Nat) : List Nat :=
  ((s.dropWhile isSpaceByte).reverse.dropWhile isSpaceByte).reverse

/-- `Pattern.String`. -/
def Pattern.String (p : Pattern) : List Nat :=
  TrimSpace (p.elements.foldl (fun sb el => sb ++ (elText el ++ [32])) [])

/-! ## Auxiliary notions for the proofs about the tokenizer -/

/-- The loop of `tokenize` on the remaining text, with the length of that text as bound. -/
def lex (i : Nat) (s : List Nat) : Except ParseError (List (List Nat)) :=
  tokenizeLoop s.length i s

/-- Put several tokens in front of a tokenizer result. -/
def consToks (ts : List (List Nat)) (r : Except ParseError (List (List Nat))) :
    Except ParseError (List (List Nat)) :=
  ts.foldr consTok r

/-! ## Specification vocabulary for parsing and rendering -/

/-- An element a well-formed pattern can hold: the value is the wildcard or a byte, the repeat
count is between 1 and `2^31 - 1`. -/
def ValidEl (el : PatternEl) : Prop :=
  (el.value = -1 ∨ (0 ≤ el.value ∧ el.value ≤ 255)) ∧ 1 ≤ el.times ∧ el.times ≤ 2 ^ 31 - 1

/-- The tokens `tokenize` finds in the text of one element. -/
def elTokens (el : PatternEl) : List (List Nat) :=
  (if el.value = -1 then [63, 63] else fmt02X el.value) ::
    (if el.times > 1 then [91 :: fmtDec el.times ++ [93]] else [])

/-- The value of a digit list, least significant digit first. -/
def lsdValue (b : Nat) (ds : List Nat) : Nat := ds.foldr (fun d acc => d + b * acc) 0

instance : DecidablePred ValidEl := fun el => by
  unfold ValidEl
  infer_instance

/-- The pattern `"12 ??[3] FF"` of `TestFromHexString_Valid`. -/
def renderTestPattern : Pattern := ⟨[⟨0x12, 1⟩, ⟨-1, 3⟩, ⟨0xFF, 1⟩]⟩

/-- One iteration of the loop of `FromHexString`: the error it returns, or the elements and
`lastIdx` it continues with. -/
def buildStep (tok : List Nat) (elements : List PatternEl) (lastIdx : Int) :
    Except ParseError (List PatternEl × Int) :=
  if tok.head? = some 91 then
    if lastIdx = -1 then Except.error ParseError.repeatWithoutElement
    else
      match Atoi (tok.drop 1).dropLast with
      | none => Except.error (ParseError.invalidRepeat tok)
      | some n =>
        if n < 1 then Except.error (ParseError.invalidRepeat tok)
        else Except.ok (setTimes elements lastIdx (wrap32 n), lastIdx)
  else if tok = [63, 63] then Except.ok (elements ++ [⟨-1, 1⟩], lastIdx + 1)
  else
    match ParseUint tok with
    | none => Except.error (ParseError.invalidHex tok)
    | some b => Except.ok (elements ++ [⟨(b : Int), 1⟩], lastIdx + 1)

/-! ## The grammar of pattern texts -/

/-- A hexadecimal digit `[0-9A-Fa-f]`. -/
def isHexDigit (c : Nat) : Bool :=
  (48 ≤ c && c ≤ 57) || (65 ≤ c && c ≤ 70) || (97 ≤ c && c ≤ 102)

/-- The text of a value: `??` or exactly two hexadecimal digits. -/
def IsValueText (v : List Nat) : Prop :=
  v = [63, 63] ∨ ∃ a b, v = [a, b] ∧ isHexDigit a = true ∧ isHexDigit b = true

/-- A repeat block as documented: `[`, one or more decimal digits denoting a positive integer,
`]`. -/
def IsRepeatDoc (r : List Nat) : Prop :=
  ∃ d, r = 91 :: d ++ [93] ∧ d ≠ [] ∧ (∀ c ∈ d, isDigit c = true) ∧ 1 ≤ decValue d

/-- A repeat block as accepted: `[`, an optional `+`, one or more decimal digits denoting an
integer between 1 and `2^63 - 1`, `]`. -/
def IsRepeatAccepted (r : List Nat) : Prop :=
  ∃ sign d, r = 91 :: (sign ++ d) ++ [93] ∧ (sign = [] ∨ sign = [43]) ∧ d ≠ [] ∧
    (∀ c ∈ d, isDigit c = true) ∧ 1 ≤ decValue d ∧ decValue d < 2 ^ 63

/-- The documented grammar on a text without spaces: a sequence of elements, each a value text
optionally followed by a single repeat block. -/
inductive DocGrammar : List Nat → Prop where
  | nil : DocGrammar []
  | element (v rest : List Nat) :
      IsValueText v → DocGrammar rest → DocGrammar (v ++ rest)
  | elementRepeat (v r rest : List Nat) :
      IsValueText v → IsRepeatDoc r → DocGrammar rest → DocGrammar (v ++ r ++ rest)

/-- The accepted grammar on a text without spaces: a sequence of elements, each a value text
followed by any number of accepted repeat blocks. -/
inductive AcceptedGrammar : List Nat → Prop where
  | nil : AcceptedGrammar []
  | element (v : List Nat) (rs : List (List Nat)) (rest : List Nat) :
      IsValueText v → (∀ r ∈ rs, IsRepeatAccepted r) → AcceptedGrammar rest →
      AcceptedGrammar (v ++ rs.flatten ++ rest)

/-- The shapes of the tokens `tokenize` emits. -/
def TokShape (t : List Nat) : Prop :=
  t = [63, 63] ∨ (∃ d, t = 91 :: d ++ [93] ∧ 93 ∉ d) ∨ (∃ a b, t = [a, b] ∧ a ≠ 91)

/-! ## Malformed repeat blocks -/

/-- A base-10 integer numeral: an optional sign `+` or `-` followed by one or more decimal
digits. -/
def IsDecimalInt (d : List Nat) : Prop :=
  ∃ sign ds, d = sign ++ ds ∧ (sign = [] ∨ sign = [43] ∨ sign = [45]) ∧ ds ≠ [] ∧
    ∀ c ∈ ds, isDigit c = true

/-- The integer a base-10 numeral denotes. -/
def intValue (d : List Nat) : Int :=
  match d with
  | [] => 0
  | c :: ds =>
    if c = 45 then -(decValue ds : Int)
    else if c = 43 then (decValue ds : Int)
    else (decValue (c :: ds) : Int)

/-- The text `pre` (without spaces) is made of whole tokens, so that in `pre ++ rest` the first
byte of `rest` starts a token. -/
def TokenBoundary (pre : List Nat) : Prop :=
  ∃ toks, tokenizeLoop pre.length 0 pre = Except.ok toks

/-- A text (without spaces) with a malformed repeat block: it begins with `[`, so that its
first token is a repeat block or an unclosed one; or a `[` that starts a token has no `]` after
it; or the text between a `[` that starts a token and the next `]` is no base-10 integer or an
integer less than 1. -/
def MalformedRepeat (s : List Nat) : Prop :=
  (∃ rest, s = 91 :: rest) ∨
  (∃ pre rest, s = pre ++ 91 :: rest ∧ TokenBoundary pre ∧ 93 ∉ rest) ∨
  (∃ pre d rest, s = pre ++ 91 :: (d ++ 93 :: rest) ∧ TokenBoundary pre ∧ 93 ∉ d ∧
    (¬ IsDecimalInt d ∨ intValue d < 1))

/-! ## Joining arguments -/

/-- `strings.Join(args, sep)`. -/
def Join : List (List Nat) → List Nat → List Nat
  | [], _ => []
  | [a], _ => a
  | a :: b :: rest, sep => a ++ sep ++ Join (b :: rest) sep

/-! ## Occurrences of a byte sequence -/

/-- The byte sequence `b` occurs in `buffer` at index `i` as a contiguous sub-sequence:
`buffer[i : i+len(b)]` is `b`. -/
def OccursAt (b buffer : List Nat) (i : Nat) : Prop :=
  (buffer.drop i).take b.length = b

/-! ## Patch with the buffer it leaves behind -/

/-- Inner loop of `Patch` for one element on the buffer as a state: the buffer as the loop
leaves it, and the write cursor, or `none` for the cursor when `buffer[bufIdx] = ...` panicked
(the writes made before the panic stay in the buffer). -/
def patchElState (value : Int) : Nat → List Nat → Int → List Nat × Option Int
  | 0, buffer, bufIdx => (buffer, some bufIdx)
  | n + 1, buffer, bufIdx =>
    if value ≠ -1 then
      if 0 ≤ bufIdx ∧ bufIdx < (buffer.length : Int) then
        patchElState value n (buffer.set bufIdx.toNat (toByte value)) (bufIdx + 1)
      else (buffer, none)
    else patchElState value n buffer (bufIdx + 1)

/-- The loop `for _, el := range p.elements` of `Patch` on the buffer as a state. -/
def patchElsState : List PatternEl → List Nat → Int → List Nat × Option Int
  | [], buffer, bufIdx => (buffer, some bufIdx)
  | el :: rest, buffer, bufIdx =>
    match patchElState el.value el.times.toNat buffer bufIdx with
    | (buffer1, none) => (buffer1, none)
    | (buffer1, some idx) => patchElsState rest buffer1 idx

/-- `Pattern.Patch` on the buffer as a state: the buffer as the call leaves it, whether it
returns or panics, and whether it panicked. -/
def Pattern.PatchState (p : Pattern) (buffer : List Nat) (offset : Int) : List Nat × Bool :=
  ((patchElsState p.elements buffer offset).1, (patchElsState p.elements buffer offset).2.isNone)

/-- The walk of `Patch` over a flat list of position values, on the buffer as a state. -/
def patchFlatState : List Int → List Nat → Int → List Nat × Bool
  | [], buffer, _ => (buffer, false)
  | v :: vs, buffer, idx =>
    if v ≠ -1 then
      if 0 ≤ idx ∧ idx < (buffer.length : Int) then
        patchFlatState vs (buffer.set idx.toNat (toByte v)) (idx + 1)
      else (buffer, true)
    else patchFlatState vs buffer (idx + 1)

/-- The pattern `AA[-2] BB[3]`, with a negative repeat count. -/
def negRepeatPattern2 : Pattern := ⟨[⟨0xAA, -2⟩, ⟨0xBB, 3⟩]⟩

/-! ## Value tokens -/

/-- A text (without spaces) with a bad value token: at a position where a token starts that is
no repeat block, two characters that are neither `??` nor two hexadecimal digits. -/
def BadValueToken (s : List Nat) : Prop :=
  ∃ pre a b rest, s = pre ++ a :: b :: rest ∧ TokenBoundary pre ∧ a ≠ 91 ∧
    ¬ (a = 63 ∧ b = 63) ∧ ¬ (isHexDigit a = true ∧ isHexDigit b = true)

/-- A text (without spaces) that ends with a single leftover character after whole tokens. -/
def LeftoverChar (s : List Nat) : Prop :=
  ∃ pre c, s = pre ++ [c] ∧ TokenBoundary pre

/-- The number a hexadecimal digit denotes. -/
def hexDigitValue (c : Nat) : Nat :=
  if c ≤ 57 then c - 48 else if c ≤ 70 then c - 55 else c - 87

/-- The value a value token denotes: `-1` for `??`, else the number written by its two
hexadecimal digits. -/
def tokenValue (t : List Nat) : Int :=
  if t = [63, 63] then -1
  else
    match t with
    | [a, b] => ((16 * hexDigitValue a + hexDigitValue b : Nat) : Int)
    | _ => 0

/-- The tokens that are no repeat blocks. -/
def valueTokens (toks : List (List Nat)) : List (List Nat) :=
  toks.filter (fun t => decide (t.head? ≠ some 91))

/-- A well-formed value token: `??`, or two hexadecimal digits, which denote a number in
`0..255`. -/
def GoodValueToken (t : List Nat) : Prop :=
  t = [63, 63] ∨ ∃ a b, t = [a, b] ∧ isHexDigit a = true ∧ isHexDigit b = true ∧
    0 ≤ tokenValue t ∧ tokenValue t ≤ 255

/-! ## The canonical rendering -/

/-- The upper-case hexadecimal digit character of a number below 16. -/
def upperHexDigit (d : Nat) : Nat := (str "0123456789ABCDEF").getD d 0

/-- The decimal numeral of a natural number. -/
def decimalText (n : Nat) : List Nat := (Nat.repr n).toList.map Char.toNat

/-- The canonical text of one element: two upper-case hexadecimal digits, or `??` for the
wildcard, followed by `[N]` exactly when the repeat count `N` exceeds 1. -/
def canonicalEl (el : PatternEl) : List Nat :=
  (if el.value = -1 then str "??"
    else [upperHexDigit (el.value.toNat / 16), upperHexDigit (el.value.toNat % 16)]) ++
  (if el.times > 1 then str "[" ++ decimalText el.times.toNat ++ str "]" else [])

/-- The canonical rendering: the canonical texts of the elements joined by single spaces. -/
def canonical (els : List PatternEl) : List Nat := Join (els.map canonicalEl) [32]

/-! ## Theorems -/

/-! ## Length -/

theorem foldl_times (els : List PatternEl) (a : Int) :
    els.foldl (fun total el => total + el.times) a = a + (els.map PatternEl.times).sum := by
  induction els generalizing a with
  | nil => simp
  | cons el rest ih => simp [List.foldl, ih, add_assoc]

theorem Length_eq_sum (p : Pattern) : p.Length = (p.elements.map PatternEl.times).sum := by
  simp [Pattern.Length, foldl_times]

theorem expandEls_length (els : List PatternEl) (h : ∀ el ∈ els, 0 ≤ el.times) :
    ((expandEls els).length : Int) = (els.map PatternEl.times).sum := by
  induction els with
  | nil => simp [expandEls]
  | cons el rest ih =>
    have h1 : 0 ≤ el.times := h el (List.mem_cons_self _ _)
    have h2 := ih (fun e he => h e (List.mem_cons_of_mem _ he))
    simp only [expandEls, List.length_append, List.length_replicate, List.map_cons, List.sum_cons]
    push_cast
    rw [h2, Int.toNat_of_nonneg h1]

theorem expand_length (p : Pattern) (h : ∀ el ∈ p.elements, 0 ≤ el.times) :
    ((expand p).length : Int) = p.Length := by
  rw [Length_eq_sum, expand, expandEls_length _ h]

/-! ## Find: the loops agree with the flat walk -/

theorem findFlat_append (buffer : List Nat) (a b : List Int) (idx : Nat) :
    findFlat buffer (a ++ b) idx =
      match findFlat buffer a idx with
      | some true => findFlat buffer b (idx + a.length)
      | r => r := by
  induction a generalizing idx with
  | nil => simp [findFlat]
  | cons v vs ih =>
    simp only [List.cons_append, findFlat, List.length_cons, List.append_eq]
    cases hb : buffer[idx]? with
    | none => simp
    | some x =>
      simp only
      split_ifs with hc
      · rfl
      · rw [ih]
        have : idx + 1 + vs.length = idx + (vs.length + 1) := by omega
        rw [this]

theorem findEl_eq (value : Int) (buffer : List Nat) (k idx : Nat) :
    findEl value buffer k idx =
      scanOf (findFlat buffer (List.replicate k value) idx) (idx + k) := by
  induction k generalizing idx with
  | zero => simp [findEl, findFlat, scanOf]
  | succ k ih =>
    simp only [findEl, List.replicate_succ, findFlat]
    cases hb : buffer[idx]? with
    | none => simp [scanOf]
    | some x =>
      simp only
      split_ifs with hc
      · simp [scanOf]
      · rw [ih]
        have : idx + 1 + k = idx + (k + 1) := by omega
        rw [this]

theorem findEls_eq (buffer : List Nat) (els : List PatternEl) (idx : Nat) :
    findEls buffer els idx =
      scanOf (findFlat buffer (expandEls els) idx) (idx + (expandEls els).length) := by
  induction els generalizing idx with
  | nil => simp [findEls, expandEls, findFlat, scanOf]
  | cons el rest ih =>
    simp only [findEls, expandEls, findEl_eq, findFlat_append, List.length_append,
      List.length_replicate]
    cases hr : findFlat buffer (List.replicate el.times.toNat el.value) idx with
    | none => simp [scanOf]
    | some r =>
      cases r with
      | false => simp [scanOf]
      | true => simp only [ih, add_assoc, scanOf]

theorem findFlat_ne_none (buffer : List Nat) (vs : List Int) (idx : Nat)
    (h : idx + vs.length ≤ buffer.length) : findFlat buffer vs idx ≠ none := by
  induction vs generalizing idx with
  | nil => simp [findFlat]
  | cons v vs ih =>
    simp only [List.length_cons] at h
    have hlt : idx < buffer.length := by omega
    simp only [findFlat, List.getElem?_eq_getElem hlt]
    split_ifs with hc
    · simp
    · exact ih (idx + 1) (by omega)

theorem findFlat_true_iff (buffer : List Nat) (vs : List Int) (idx : Nat) :
    findFlat buffer vs idx = some true ↔
      ∀ j v, vs[j]? = some v → ∃ b, buffer[idx + j]? = some b ∧ posMatches v b := by
  induction vs generalizing idx with
  | nil => simp [findFlat]
  | cons v vs ih =>
    simp only [findFlat]
    constructor
    · intro h j w hj
      cases hb : buffer[idx]? with
      | none => simp [hb] at h
      | some x =>
        simp only [hb] at h
        split_ifs at h with hc
        · simp at h
        · cases j with
          | zero =>
            simp only [List.getElem?_cons_zero, Option.some.injEq] at hj
            subst hj
            refine ⟨x, by simpa using hb, ?_⟩
            unfold posMatches
            by_contra hne
            exact hc ⟨fun h1 => hne (Or.inl h1), fun h2 => hne (Or.inr h2)⟩
          | succ j =>
            simp only [List.getElem?_cons_succ] at hj
            obtain ⟨b, hb1, hb2⟩ := (ih (idx + 1)).1 h j w hj
            refine ⟨b, ?_, hb2⟩
            have : idx + (j + 1) = idx + 1 + j := by omega
            rw [this]; exact hb1
    · intro h
      obtain ⟨b, hb1, hb2⟩ := h 0 v (by simp)
      simp only [add_zero] at hb1
      simp only [hb1]
      have hc : ¬ (v ≠ -1 ∧ v ≠ (b : Int)) := by
        unfold posMatches at hb2
        rcases hb2 with h1 | h1
        · exact fun hh => hh.1 h1
        · exact fun hh => hh.2 h1
      rw [if_neg hc]
      apply (ih (idx + 1)).2
      intro j w hj
      obtain ⟨b2, hb3, hb4⟩ := h (j + 1) w (by simpa using hj)
      refine ⟨b2, ?_, hb4⟩
      have : idx + 1 + j = idx + (j + 1) := by omega
      rw [this]; exact hb3

theorem findLoop_spec (p : Pattern) (buffer : List Nat) (n i : Nat)
    (hfit : i + n + (expand p).length ≤ buffer.length + 1) :
    ∃ r : Int, findLoop p buffer n i = some r ∧
      ((r = -1 ∧ ∀ i1, i ≤ i1 → i1 < i + n → ¬ MatchesAt p buffer i1) ∨
       (∃ i1 : Nat, r = (i1 : Int) ∧ i ≤ i1 ∧ i1 < i + n ∧ MatchesAt p buffer i1 ∧
          ∀ i2, i ≤ i2 → i2 < i1 → ¬ MatchesAt p buffer i2)) := by
  induction n generalizing i with
  | zero =>
    refine ⟨-1, rfl, Or.inl ⟨rfl, ?_⟩⟩
    intro i1 h1 h2
    omega
  | succ n ih =>
    simp only [findLoop, findEls_eq]
    have hne := findFlat_ne_none buffer (expandEls p.elements) i (by
      have : (expand p).length = (expandEls p.elements).length := rfl
      omega)
    cases hr : findFlat buffer (expandEls p.elements) i with
    | none => exact absurd hr hne
    | some b =>
      cases b with
      | true =>
        have hm : MatchesAt p buffer i := (findFlat_true_iff buffer _ i).1 hr
        refine ⟨(i : Int), by simp [scanOf], Or.inr ⟨i, rfl, le_refl _, by omega, hm, ?_⟩⟩
        intro i2 h1 h2
        omega
      | false =>
        have hm : ¬ MatchesAt p buffer i := by
          intro hm
          have h2 : findFlat buffer (expandEls p.elements) i = some true :=
            (findFlat_true_iff buffer _ i).2 hm
          rw [hr] at h2
          simp at h2
        obtain ⟨r, hr1, hr2⟩ := ih (i + 1) (by omega)
        refine ⟨r, by simpa [scanOf] using hr1, ?_⟩
        rcases hr2 with ⟨h1, h2⟩ | ⟨i1, h1, h2, h3, h4, h5⟩
        · refine Or.inl ⟨h1, ?_⟩
          intro i1 h3 h4
          by_cases he : i1 = i
          · subst he; exact hm
          · exact h2 i1 (by omega) (by omega)
        · refine Or.inr ⟨i1, h1, by omega, by omega, h4, ?_⟩
          intro i2 h6 h7
          by_cases he : i2 = i
          · subst he; exact hm
          · exact h5 i2 (by omega) h7

/-- C1. For a pattern whose elements all have repeat at least 1, `Find` returns (without
panicking) a result `r` such that `r = -1` exactly when `Length` is 0 or no offset `i` with
`i + Length ≤ len(buffer)` matches, and otherwise `r` is the smallest offset at which every
expanded position of the pattern matches the buffer. -/
theorem Find_smallest_match (p : Pattern) (buffer : List Nat)
    (h : ∀ el ∈ p.elements, 1 ≤ el.times) :
    ∃ r : Int, p.Find buffer = some r ∧
      (r = -1 ↔ (p.Length = 0 ∨
        ¬ ∃ i : Nat, (i : Int) + p.Length ≤ buffer.length ∧ MatchesAt p buffer i)) ∧
      (r ≠ -1 → ∃ i : Nat, r = (i : Int) ∧ (i : Int) + p.Length ≤ buffer.length ∧
        MatchesAt p buffer i ∧ ∀ i1 : Nat, i1 < i → ¬ MatchesAt p buffer i1) := by
  have hlen : ((expand p).length : Int) = p.Length :=
    expand_length p (fun el he => le_trans (by decide) (h el he))
  unfold Pattern.Find
  simp only
  by_cases h0 : p.Length = 0 ∨ (buffer.length : Int) < p.Length
  · rw [if_pos h0]
    refine ⟨-1, rfl, ?_, fun hne => absurd rfl hne⟩
    constructor
    · intro _
      rcases h0 with h0 | h0
      · exact Or.inl h0
      · right
        rintro ⟨i, hi, _⟩
        omega
    · intro _; rfl
  · rw [if_neg h0]
    push_neg at h0
    obtain ⟨hz, hle⟩ := h0
    have hn : ((buffer.length : Int) - p.Length + 1).toNat + (expand p).length
        = buffer.length + 1 := by omega
    obtain ⟨r, hr1, hr2⟩ := findLoop_spec p buffer
      ((buffer.length : Int) - p.Length + 1).toNat 0 (by omega)
    refine ⟨r, hr1, ?_⟩
    rcases hr2 with ⟨h1, h2⟩ | ⟨i1, h1, h2, h3, h4, h5⟩
    · refine ⟨?_, fun hne => absurd h1 hne⟩
      constructor
      · intro _
        right
        rintro ⟨i, hi, hm⟩
        exact h2 i (Nat.zero_le _) (by omega) hm
      · intro _; exact h1
    · have hr : r ≠ -1 := by omega
      refine ⟨?_, fun _ => ⟨i1, h1, by omega, h4, fun i2 hi2 => h5 i2 (Nat.zero_le _) hi2⟩⟩
      constructor
      · intro hh; exact absurd hh hr
      · intro hh
        rcases hh with hh | hh
        · exact absurd hh hz
        · exact absurd ⟨i1, by omega, h4⟩ hh

/-! ## Patch: the loops agree with the flat walk -/

theorem patchFlat_append (a b : List Int) (buffer : List Nat) (idx : Int) :
    patchFlat (a ++ b) buffer idx =
      (patchFlat a buffer idx).bind (fun b1 => patchFlat b b1 (idx + a.length)) := by
  induction a generalizing buffer idx with
  | nil => simp [patchFlat]
  | cons v vs ih =>
    simp only [List.cons_append, patchFlat, List.length_cons, List.append_eq]
    have e : idx + 1 + (vs.length : Int) = idx + ((vs.length + 1 : Nat) : Int) := by
      push_cast; ring
    split_ifs with h1 h2
    · rw [ih, e]
    · rfl
    · rw [ih, e]

theorem patchEl_eq (value : Int) (n : Nat) (buffer : List Nat) (idx : Int) :
    patchEl value n buffer idx =
      (patchFlat (List.replicate n value) buffer idx).map (fun b => (b, idx + n)) := by
  induction n generalizing buffer idx with
  | zero => simp [patchEl, patchFlat]
  | succ n ih =>
    simp only [patchEl, List.replicate_succ, patchFlat]
    have e : idx + 1 + (n : Int) = idx + ((n + 1 : Nat) : Int) := by push_cast; ring
    split_ifs with h1 h2
    · rw [ih, e]
    · rfl
    · rw [ih, e]

theorem patchEls_eq (els : List PatternEl) (buffer : List Nat) (idx : Int) :
    patchEls els buffer idx =
      (patchFlat (expandEls els) buffer idx).map
        (fun b => (b, idx + ((expandEls els).length : Int))) := by
  induction els generalizing buffer idx with
  | nil => simp [patchEls, expandEls, patchFlat]
  | cons el rest ih =>
    simp only [patchEls, expandEls, patchEl_eq, patchFlat_append, List.length_append,
      List.length_replicate]
    cases hr : patchFlat (List.replicate el.times.toNat el.value) buffer idx with
    | none => simp
    | some b1 =>
      simp only [Option.map_some', Option.some_bind, ih]
      push_cast
      rw [add_assoc]

theorem Patch_eq_patchFlat (p : Pattern) (buffer : List Nat) (offset : Int) :
    p.Patch buffer offset = patchFlat (expand p) buffer offset := by
  unfold Pattern.Patch expand
  rw [patchEls_eq]
  cases patchFlat (expandEls p.elements) buffer offset <;> simp

theorem patchFlat_length (vs : List Int) (buffer out : List Nat) (idx : Int)
    (h : patchFlat vs buffer idx = some out) : out.length = buffer.length := by
  induction vs generalizing buffer idx with
  | nil => simp only [patchFlat, Option.some.injEq] at h; rw [← h]
  | cons v vs ih =>
    simp only [patchFlat] at h
    split_ifs at h with h1 h2
    · rw [ih _ _ h, List.length_set]
    · exact ih _ _ h

theorem patchFlat_none_iff (vs : List Int) (buffer : List Nat) (idx : Int) :
    patchFlat vs buffer idx = none ↔
      ∃ (j : Nat) (v : Int), vs[j]? = some v ∧ v ≠ -1 ∧
        ¬ (0 ≤ idx + j ∧ idx + j < (buffer.length : Int)) := by
  induction vs generalizing buffer idx with
  | nil => simp [patchFlat]
  | cons v vs ih =>
    simp only [patchFlat]
    have shift : (∃ (j : Nat) (w : Int), vs[j]? = some w ∧ w ≠ -1 ∧
          ¬ (0 ≤ idx + 1 + j ∧ idx + 1 + j < (buffer.length : Int))) ↔
        ∃ (j : Nat) (w : Int), (v :: vs)[j + 1]? = some w ∧ w ≠ -1 ∧
          ¬ (0 ≤ idx + ((j + 1 : Nat) : Int) ∧
            idx + ((j + 1 : Nat) : Int) < (buffer.length : Int)) := by
      constructor
      · rintro ⟨j, w, h1, h2, h3⟩
        refine ⟨j, w, by simpa using h1, h2, ?_⟩
        push_cast; intro hh; apply h3; constructor <;> omega
      · rintro ⟨j, w, h1, h2, h3⟩
        refine ⟨j, w, by simpa using h1, h2, ?_⟩
        push_cast at h3; intro hh; apply h3; constructor <;> omega
    split_ifs with h1 h2
    · rw [ih, List.length_set, shift]
      constructor
      · rintro ⟨j, w, hj⟩; exact ⟨j + 1, w, hj⟩
      · rintro ⟨j, w, hj1, hj2, hj3⟩
        cases j with
        | zero =>
          exfalso; apply hj3; simpa using h2
        | succ j => exact ⟨j, w, hj1, hj2, hj3⟩
    · simp only [true_iff]
      exact ⟨0, v, by simp, h1, by simpa using h2⟩
    · rw [ih, shift]
      constructor
      · rintro ⟨j, w, hj⟩; exact ⟨j + 1, w, hj⟩
      · rintro ⟨j, w, hj1, hj2, hj3⟩
        cases j with
        | zero =>
          simp only [List.getElem?_cons_zero, Option.some.injEq] at hj1
          subst hj1
          exact absurd hj2 h1
        | succ j => exact ⟨j, w, hj1, hj2, hj3⟩

theorem patchFlat_untouched (vs : List Int) (buffer out : List Nat) (idx : Int)
    (h : patchFlat vs buffer idx = some out) (k : Nat)
    (hk : ∀ (j : Nat) (v : Int), vs[j]? = some v → v ≠ -1 → idx + j ≠ (k : Int)) :
    out[k]? = buffer[k]? := by
  induction vs generalizing buffer idx with
  | nil => simp only [patchFlat, Option.some.injEq] at h; rw [← h]
  | cons v vs ih =>
    have hk1 : ∀ (j : Nat) (w : Int), vs[j]? = some w → w ≠ -1 → idx + 1 + j ≠ (k : Int) := by
      intro j w h1 h2
      have := hk (j + 1) w (by simpa using h1) h2
      push_cast at this
      omega
    simp only [patchFlat] at h
    split_ifs at h with h1 h2
    · rw [ih _ _ h hk1]
      have h0 := hk 0 v (by simp) h1
      apply List.getElem?_set_ne
      simp only [Nat.cast_zero, add_zero] at h0
      omega
    · exact ih _ _ h hk1

theorem patchFlat_written (vs : List Int) (buffer out : List Nat) (idx : Int)
    (h : patchFlat vs buffer idx = some out) (j : Nat) (v : Int)
    (hj : vs[j]? = some v) (hv : v ≠ -1) :
    out[(idx + j).toNat]? = some (toByte v) := by
  induction vs generalizing buffer idx j with
  | nil => simp at hj
  | cons w vs ih =>
    simp only [patchFlat] at h
    cases j with
    | zero =>
      simp only [List.getElem?_cons_zero, Option.some.injEq] at hj
      subst hj
      rw [if_pos hv] at h
      split_ifs at h with h2
      simp only [Nat.cast_zero, add_zero]
      rw [patchFlat_untouched vs _ out (idx + 1) h idx.toNat (by intro j u _ _; omega)]
      apply List.getElem?_set_self
      omega
    | succ j =>
      simp only [List.getElem?_cons_succ] at hj
      have e : idx + ((j + 1 : Nat) : Int) = idx + 1 + (j : Int) := by push_cast; ring
      rw [e]
      split_ifs at h with h1 h2
      · exact ih _ _ h j hj
      · exact ih _ _ h j hj

/-! ## Patch: frame and failure -/

/-- C6 (amended). For a pattern whose repeat counts are all non-negative, a buffer and an
offset with `0 ≤ offset` and `offset + Length ≤ len(buffer)`, `Patch` completes without a
panic, keeps the buffer length, sets every position covered by a concrete element to
`byte(value)` (the value itself when it is in `0..255`), leaves every position covered by a
wildcard unchanged and leaves every byte outside `[offset, offset+Length)` unchanged. The
pattern is an argument of the embedded function and no part of its result: `Patch` contains no
assignment to `p.elements`. -/
theorem Patch_frame (p : Pattern) (buffer : List Nat) (offset : Int)
    (hnn : ∀ el ∈ p.elements, 0 ≤ el.times) (h0 : 0 ≤ offset)
    (hfit : offset + p.Length ≤ (buffer.length : Int)) :
    ∃ out, p.Patch buffer offset = some out ∧ out.length = buffer.length ∧
      (∀ (j : Nat) (v : Int), (expand p)[j]? = some v → v ≠ -1 →
        out[(offset + j).toNat]? = some (toByte v) ∧
          (0 ≤ v → v ≤ 255 → toByte v = v.toNat)) ∧
      (∀ j : Nat, (expand p)[j]? = some (-1) →
        out[(offset + j).toNat]? = buffer[(offset + j).toNat]?) ∧
      (∀ k : Nat, ((k : Int) < offset ∨ offset + p.Length ≤ (k : Int)) →
        out[k]? = buffer[k]?) := by
  have hlen : ((expand p).length : Int) = p.Length := expand_length p hnn
  rw [Patch_eq_patchFlat]
  cases hr : patchFlat (expand p) buffer offset with
  | none =>
    exfalso
    obtain ⟨j, v, h1, _, h3⟩ := (patchFlat_none_iff _ _ _).1 hr
    have hj : j < (expand p).length := by
      by_contra hc
      rw [List.getElem?_eq_none (by omega)] at h1
      simp at h1
    apply h3
    constructor <;> omega
  | some out =>
    refine ⟨out, rfl, patchFlat_length _ _ _ _ hr, ?_, ?_, ?_⟩
    · intro j v h1 h2
      refine ⟨patchFlat_written _ _ _ _ hr j v h1 h2, ?_⟩
      intro h3 h4
      unfold toByte
      rw [Int.emod_eq_of_lt h3 (by omega)]
    · intro j h1
      apply patchFlat_untouched _ _ _ _ hr
      intro j2 v h2 h3
      have e : ((offset + j).toNat : Int) = offset + j := Int.toNat_of_nonneg (by omega)
      rw [e]
      intro h4
      have : j2 = j := by omega
      subst this
      rw [h1] at h2
      simp only [Option.some.injEq] at h2
      exact h3 h2.symm
    · intro k hk
      apply patchFlat_untouched _ _ _ _ hr
      intro j v h2 _
      have hj : j < (expand p).length := by
        by_contra hc
        rw [List.getElem?_eq_none (by omega)] at h2
        simp at h2
      omega

/-- C7 (amended). `Patch` ends in an index-out-of-range panic exactly when some position
covered by a concrete (non-wildcard) element lies outside the buffer; otherwise it completes
normally, and then every concrete position of the whole pattern has been written and the buffer
length is unchanged (nothing is clamped or truncated). -/
theorem Patch_panics_iff (p : Pattern) (buffer : List Nat) (offset : Int) :
    (p.Patch buffer offset = none ↔
      ∃ (j : Nat) (v : Int), (expand p)[j]? = some v ∧ v ≠ -1 ∧
        ¬ (0 ≤ offset + j ∧ offset + j < (buffer.length : Int))) ∧
    (∀ out, p.Patch buffer offset = some out →
      out.length = buffer.length ∧
        ∀ (j : Nat) (v : Int), (expand p)[j]? = some v → v ≠ -1 →
          out[(offset + j).toNat]? = some (toByte v)) := by
  rw [Patch_eq_patchFlat]
  refine ⟨patchFlat_none_iff _ _ _, ?_⟩
  intro out hr
  exact ⟨patchFlat_length _ _ _ _ hr, fun j v h1 h2 => patchFlat_written _ _ _ _ hr j v h1 h2⟩

/-- C1 witness: the pattern and buffer of `TestFind`. -/
theorem Find_smallest_match_witness :
    (∀ el ∈ findTestPattern.elements, 1 ≤ el.times) ∧
    ∃ r : Int, findTestPattern.Find [0, 1, 2, 3, 4, 5, 6] = some r ∧
      (r = -1 ↔ (findTestPattern.Length = 0 ∨
        ¬ ∃ i : Nat, (i : Int) + findTestPattern.Length ≤
            (([0, 1, 2, 3, 4, 5, 6] : List Nat).length : Int) ∧
          MatchesAt findTestPattern [0, 1, 2, 3, 4, 5, 6] i)) ∧
      (r ≠ -1 → ∃ i : Nat, r = (i : Int) ∧
        (i : Int) + findTestPattern.Length ≤
          (([0, 1, 2, 3, 4, 5, 6] : List Nat).length : Int) ∧
        MatchesAt findTestPattern [0, 1, 2, 3, 4, 5, 6] i ∧
        ∀ i1 : Nat, i1 < i → ¬ MatchesAt findTestPattern [0, 1, 2, 3, 4, 5, 6] i1) :=
  ⟨by decide, Find_smallest_match findTestPattern [0, 1, 2, 3, 4, 5, 6] (by decide)⟩

/-- C6 counterexample: with a negative repeat count the hypotheses `0 ≤ offset` and
`offset + Length ≤ len(buffer)` hold (Length is `-1 + 2 = 1`), yet `Patch` walks two positions
of a one-byte buffer and panics. The pattern is the one `FromHexString` builds from
`"AA[4294967295] BB[2]"`. -/
theorem Patch_frame_counterexample :
    (0 : Int) ≤ 0 ∧
    (0 : Int) + negRepeatPattern.Length ≤ ((([0] : List Nat).length : Nat) : Int) ∧
    negRepeatPattern.Patch [0] 0 = none ∧
    FromHexString (str "AA[4294967295] BB[2]") = (negRepeatPattern.elements, none) := by
  decide

/-- C6 witness: the pattern of `TestPatch` on a zeroed four-byte buffer. -/
theorem Patch_frame_witness :
    (∀ el ∈ patchTestPattern.elements, 0 ≤ el.times) ∧ (0 : Int) ≤ 0 ∧
    (0 : Int) + patchTestPattern.Length ≤ ((([0, 0, 0, 0] : List Nat).length : Nat) : Int) ∧
    ∃ out, patchTestPattern.Patch [0, 0, 0, 0] 0 = some out ∧
      out.length = ([0, 0, 0, 0] : List Nat).length ∧
      (∀ (j : Nat) (v : Int), (expand patchTestPattern)[j]? = some v → v ≠ -1 →
        out[((0 : Int) + j).toNat]? = some (toByte v) ∧
          (0 ≤ v → v ≤ 255 → toByte v = v.toNat)) ∧
      (∀ j : Nat, (expand patchTestPattern)[j]? = some (-1) →
        out[((0 : Int) + j).toNat]? = ([0, 0, 0, 0] : List Nat)[((0 : Int) + j).toNat]?) ∧
      (∀ k : Nat, ((k : Int) < 0 ∨ (0 : Int) + patchTestPattern.Length ≤ (k : Int)) →
        out[k]? = ([0, 0, 0, 0] : List Nat)[k]?) :=
  ⟨by decide, by decide, by decide,
    Patch_frame patchTestPattern [0, 0, 0, 0] 0 (by decide) (by decide) (by decide)⟩

/-- C7 counterexample: `"AA ??"` patched into a one-byte buffer at offset 0 has
`offset + Length = 2 > 1 = len(buffer)`, yet `Patch` completes normally (the out-of-range
position is a wildcard, so nothing is indexed there). -/
theorem Patch_completes_past_end :
    (0 : Int) + trailingWildcardPattern.Length > ((([0] : List Nat).length : Nat) : Int) ∧
    trailingWildcardPattern.Patch [0] 0 = some [0xAA] := by
  decide

/-! ## The tokenizer -/

theorem scanClose_some (cs d rest : List Nat) (h : scanClose cs = some (d, rest)) :
    cs = d ++ 93 :: rest ∧ 93 ∉ d := by
  induction cs generalizing d with
  | nil => simp [scanClose] at h
  | cons c cs ih =>
    simp only [scanClose] at h
    split_ifs at h with hc
    · simp only [Option.some.injEq, Prod.mk.injEq] at h
      obtain ⟨h1, h2⟩ := h
      subst h1 h2 hc
      simp
    · cases hr : scanClose cs with
      | none => simp [hr] at h
      | some pr =>
        obtain ⟨d1, r1⟩ := pr
        simp only [hr, Option.some.injEq, Prod.mk.injEq] at h
        obtain ⟨h1, h2⟩ := h
        subst h1 h2
        obtain ⟨e1, e2⟩ := ih d1 hr
        refine ⟨by rw [e1]; simp, ?_⟩
        simp only [List.mem_cons, not_or]
        exact ⟨fun hh => hc hh.symm, e2⟩

theorem scanClose_none (cs : List Nat) : scanClose cs = none ↔ 93 ∉ cs := by
  induction cs with
  | nil => simp [scanClose]
  | cons c cs ih =>
    simp only [scanClose, List.mem_cons, not_or]
    split_ifs with hc
    · simp [hc]
    · cases hr : scanClose cs with
      | none =>
        simp only [true_iff]
        exact ⟨fun hh => hc hh.symm, ih.1 hr⟩
      | some pr =>
        simp only [reduceCtorEq, false_iff, not_and, not_not]
        intro _
        by_contra hh
        rw [ih.2 hh] at hr
        simp at hr

theorem scanClose_append (d rest : List Nat) (h : 93 ∉ d) :
    scanClose (d ++ 93 :: rest) = some (d, rest) := by
  induction d with
  | nil => simp [scanClose]
  | cons c d ih =>
    simp only [List.mem_cons, not_or] at h
    simp only [List.cons_append, scanClose, List.append_eq]
    rw [if_neg (fun hh => h.1 hh.symm), ih h.2]

theorem tokenizeLoop_nil (f i : Nat) : tokenizeLoop f i [] = Except.ok [] := by
  cases f <;> rfl

theorem tokenizeLoop_fuel (f1 f2 i : Nat) (s : List Nat) (h1 : s.length ≤ f1)
    (h2 : s.length ≤ f2) : tokenizeLoop f1 i s = tokenizeLoop f2 i s := by
  induction f1 generalizing f2 i s with
  | zero =>
    have : s = [] := List.length_eq_zero.1 (by omega)
    subst this
    rw [tokenizeLoop_nil, tokenizeLoop_nil]
  | succ f1 ih =>
    cases s with
    | nil => rw [tokenizeLoop_nil, tokenizeLoop_nil]
    | cons c cs =>
      simp only [List.length_cons] at h1 h2
      obtain ⟨f2, rfl⟩ : ∃ g, f2 = g + 1 := ⟨f2 - 1, by omega⟩
      simp only [tokenizeLoop]
      split_ifs with hq hb
      · rw [ih f2 _ cs.tail (by simp; omega) (by simp; omega)]
      · cases hr : scanClose cs with
        | none => rfl
        | some pr =>
          obtain ⟨d, rest⟩ := pr
          have hl := (scanClose_some cs d rest hr).1
          have hlen : rest.length ≤ cs.length := by rw [hl]; simp; omega
          simp only
          rw [ih f2 _ rest (by omega) (by omega)]
      · cases cs with
        | nil => rfl
        | cons c2 rest =>
          simp only [List.length_cons] at h1 h2
          simp only
          rw [ih f2 _ rest (by omega) (by omega)]

/-- The recursion bound of `tokenize` is never exhausted. -/
theorem tokenizeLoop_ne_outOfFuel (f i : Nat) (s : List Nat) (h : s.length ≤ f) :
    tokenizeLoop f i s ≠ Except.error ParseError.outOfFuel := by
  induction f generalizing i s with
  | zero =>
    have : s = [] := List.length_eq_zero.1 (by omega)
    subst this
    simp [tokenizeLoop_nil]
  | succ f ih =>
    cases s with
    | nil => simp [tokenizeLoop_nil]
    | cons c cs =>
      simp only [List.length_cons] at h
      have hcons : ∀ (tok : List Nat) (r : Except ParseError (List (List Nat))),
          r ≠ Except.error ParseError.outOfFuel →
          consTok tok r ≠ Except.error ParseError.outOfFuel := by
        intro tok r hr
        cases r with
        | ok ts => simp [consTok]
        | error e => simpa [consTok] using hr
      simp only [tokenizeLoop]
      split_ifs with hq hb
      · exact hcons _ _ (ih _ cs.tail (by simp; omega))
      · cases hr : scanClose cs with
        | none => simp
        | some pr =>
          obtain ⟨d, rest⟩ := pr
          have hl := (scanClose_some cs d rest hr).1
          have hlen : rest.length ≤ cs.length := by rw [hl]; simp; omega
          exact hcons _ _ (ih _ rest (by omega))
      · cases cs with
        | nil => simp
        | cons c2 rest =>
          simp only [List.length_cons] at h
          exact hcons _ _ (ih _ rest (by omega))

theorem tokenize_eq_lex (input : List Nat) : tokenize input = lex 0 (removeSpaces input) := rfl

theorem lex_fuel (f i : Nat) (s : List Nat) (h : s.length ≤ f) :
    tokenizeLoop f i s = lex i s :=
  tokenizeLoop_fuel f s.length i s h (le_refl _)

theorem lex_nil (i : Nat) : lex i [] = Except.ok [] := rfl

theorem lex_wild (i : Nat) (rest : List Nat) :
    lex i (63 :: 63 :: rest) = consTok [63, 63] (lex (i + 2) rest) := by
  simp only [lex, List.length_cons, tokenizeLoop, List.head?_cons, and_self, if_true,
    List.tail_cons]
  rw [lex_fuel _ _ _ (by omega)]
  rfl

theorem lex_rep (i : Nat) (cs d rest : List Nat) (h : scanClose cs = some (d, rest)) :
    lex i (91 :: cs) = consTok (91 :: d ++ [93]) (lex (i + d.length + 2) rest) := by
  have hl := (scanClose_some cs d rest h).1
  have hlen : rest.length ≤ cs.length := by rw [hl]; simp; omega
  simp only [lex, List.length_cons, tokenizeLoop, h]
  rw [if_pos trivial, lex_fuel _ _ _ hlen]
  rfl

theorem lex_rep_none (i : Nat) (cs : List Nat) (h : scanClose cs = none) :
    lex i (91 :: cs) = Except.error (ParseError.unclosedRepeat i) := by
  simp [lex, tokenizeLoop, h]

theorem lex_hex (i c c2 : Nat) (rest : List Nat) (h1 : c ≠ 91) (h2 : ¬ (c = 63 ∧ c2 = 63)) :
    lex i (c :: c2 :: rest) = consTok [c, c2] (lex (i + 2) rest) := by
  simp only [lex, List.length_cons, tokenizeLoop, List.head?_cons, Option.some.injEq]
  rw [if_neg h2, if_neg h1, lex_fuel _ _ _ (by omega)]
  rfl

theorem lex_one (i c : Nat) (h1 : c ≠ 91) :
    lex i [c] = Except.error (ParseError.incompleteHex i) := by
  simp only [lex, List.length_cons, List.length_nil, tokenizeLoop, List.head?_nil]
  rw [if_neg (by simp), if_neg h1]

theorem consTok_ok (tok : List Nat) (r : Except ParseError (List (List Nat)))
    (toks : List (List Nat)) (h : consTok tok r = Except.ok toks) :
    ∃ toks1, r = Except.ok toks1 ∧ toks = tok :: toks1 := by
  cases r with
  | error e => simp [consTok] at h
  | ok ts =>
    simp only [consTok, Except.ok.injEq] at h
    exact ⟨ts, rfl, h.symm⟩

/-- A case analysis of one step of the tokenizer on a non-empty text. -/
theorem lex_cases (i c : Nat) (cs : List Nat) :
    (∃ rest, c = 63 ∧ cs = 63 :: rest ∧
      lex i (c :: cs) = consTok [63, 63] (lex (i + 2) rest)) ∨
    (c = 91 ∧ scanClose cs = none ∧
      lex i (c :: cs) = Except.error (ParseError.unclosedRepeat i)) ∨
    (∃ d rest, c = 91 ∧ cs = d ++ 93 :: rest ∧ 93 ∉ d ∧
      lex i (c :: cs) = consTok (91 :: d ++ [93]) (lex (i + d.length + 2) rest)) ∨
    (c ≠ 91 ∧ cs = [] ∧ lex i (c :: cs) = Except.error (ParseError.incompleteHex i)) ∨
    (∃ c2 rest, c ≠ 91 ∧ ¬ (c = 63 ∧ c2 = 63) ∧ cs = c2 :: rest ∧
      lex i (c :: cs) = consTok [c, c2] (lex (i + 2) rest)) := by
  by_cases hb : c = 91
  · subst hb
    cases hr : scanClose cs with
    | none => exact Or.inr (Or.inl ⟨rfl, rfl, lex_rep_none i cs hr⟩)
    | some pr =>
      obtain ⟨d, rest⟩ := pr
      obtain ⟨e1, e2⟩ := scanClose_some cs d rest hr
      exact Or.inr (Or.inr (Or.inl ⟨d, rest, rfl, e1, e2, lex_rep i cs d rest hr⟩))
  · cases cs with
    | nil => exact Or.inr (Or.inr (Or.inr (Or.inl ⟨hb, rfl, lex_one i c hb⟩)))
    | cons c2 rest =>
      by_cases hq : c = 63 ∧ c2 = 63
      · obtain ⟨h1, h2⟩ := hq
        subst h1 h2
        exact Or.inl ⟨rest, rfl, rfl, lex_wild i rest⟩
      · exact Or.inr (Or.inr (Or.inr (Or.inr ⟨c2, rest, hb, hq, rfl, lex_hex i c c2 rest hb hq⟩)))

/-! ## Digits -/

theorem lsdDigits_lt (b : Nat) (hb : 0 < b) (f n : Nat) : ∀ d ∈ lsdDigits b f n, d < b := by
  induction f generalizing n with
  | zero => simp [lsdDigits]
  | succ f ih =>
    simp only [lsdDigits]
    split_ifs with h
    · simp [h]
    · intro d hd
      simp only [List.mem_cons] at hd
      rcases hd with hd | hd
      · rw [hd]; exact Nat.mod_lt _ hb
      · exact ih _ d hd

theorem lsdDigits_ne_nil (b f n : Nat) : lsdDigits b (f + 1) n ≠ [] := by
  simp only [lsdDigits]
  split_ifs <;> simp

theorem lsdDigits_value (b : Nat) (hb : 2 ≤ b) (f n : Nat) (h : n < f) :
    lsdValue b (lsdDigits b f n) = n := by
  induction f generalizing n with
  | zero => omega
  | succ f ih =>
    simp only [lsdDigits]
    split_ifs with hlt
    · simp [lsdValue]
    · have hdiv : n / b < f := by
        have : n / b < n := Nat.div_lt_self (by omega) (by omega)
        omega
      have := ih (n / b) hdiv
      simp only [lsdValue, List.foldr_cons] at this ⊢
      rw [this]
      exact Nat.mod_add_div n b

theorem decValue_digits (ds : List Nat) (h : ∀ d ∈ ds, d < 10) :
    decValue (ds.reverse.map digitChar) = lsdValue 10 ds := by
  unfold decValue lsdValue
  rw [List.foldl_map, List.foldl_reverse]
  induction ds with
  | nil => rfl
  | cons d ds ih =>
    have hd : d < 10 := h d (List.mem_cons_self _ _)
    simp only [List.foldr_cons]
    rw [ih (fun e he => h e (List.mem_cons_of_mem _ he))]
    simp only [digitChar, if_pos hd]
    omega

theorem fmtNatDec_isDigit (n : Nat) : ∀ c ∈ fmtNatDec n, isDigit c = true := by
  intro c hc
  simp only [fmtNatDec, digitsOf, List.mem_map, List.mem_reverse] at hc
  obtain ⟨d, hd, rfl⟩ := hc
  have := lsdDigits_lt 10 (by decide) _ _ d hd
  simp only [digitChar, if_pos this, isDigit, Bool.and_eq_true, decide_eq_true_eq]
  omega

theorem fmtNatDec_ne_nil (n : Nat) : fmtNatDec n ≠ [] := by
  simp only [fmtNatDec, digitsOf, ne_eq, List.map_eq_nil_iff, List.reverse_eq_nil_iff]
  exact lsdDigits_ne_nil 10 n n

theorem decValue_fmtNatDec (n : Nat) : decValue (fmtNatDec n) = n := by
  unfold fmtNatDec digitsOf
  rw [decValue_digits _ (lsdDigits_lt 10 (by decide) _ _),
    lsdDigits_value 10 (by decide) _ _ (Nat.lt_succ_self n)]

theorem isDigit_iff (c : Nat) : isDigit c = true ↔ 48 ≤ c ∧ c ≤ 57 := by
  simp [isDigit]

/-- `Atoi` reads back what `%d` writes for a number between 0 and `2^63 - 1`. -/
theorem Atoi_fmtDec (t : Int) (h0 : 0 ≤ t) (h1 : t < 2 ^ 63) : Atoi (fmtDec t) = some t := by
  obtain ⟨n, rfl⟩ := Int.eq_ofNat_of_zero_le h0
  have hne := fmtNatDec_ne_nil n
  have hdig := fmtNatDec_isDigit n
  have hsplit : splitSign (fmtNatDec n) = (false, fmtNatDec n) := by
    cases hs : fmtNatDec n with
    | nil => exact absurd hs hne
    | cons c cs =>
      have hc := (isDigit_iff c).1 (hdig c (by rw [hs]; exact List.mem_cons_self _ _))
      simp only [splitSign]
      rw [if_neg (by omega), if_neg (by omega)]
  have hall : (fmtNatDec n).all isDigit = true := by
    rw [List.all_eq_true]; exact hdig
  have hv : ¬ (n ≥ 2 ^ 63) := by
    have : (n : Int) < 2 ^ 63 := h1
    omega
  have hfmt : fmtDec (n : Int) = fmtNatDec n := by
    simp [fmtDec]
  have hv2 : ¬ (2 ^ 63 ≤ n) := hv
  rw [hfmt]
  unfold Atoi
  simp only [hsplit]
  rw [if_neg hne, if_neg (by simp [hall]), decValue_fmtNatDec]
  simp only [Bool.false_eq_true, if_false]
  rw [if_neg hv]

/-! ## Hexadecimal bytes -/

theorem digitsOf16_byte (n : Nat) (h : n < 256) :
    (digitsOf 16 n).map digitChar =
      if n < 16 then [digitChar n] else [digitChar (n / 16), digitChar (n % 16)] := by
  unfold digitsOf
  by_cases h16 : n < 16
  · simp [lsdDigits, h16]
  · obtain ⟨m, rfl⟩ : ∃ m, n = m + 1 := ⟨n - 1, by omega⟩
    have hq : (m + 1) / 16 < 16 := by omega
    simp [lsdDigits, h16, hq]

theorem fmt02X_byte (n : Nat) (h : n < 256) :
    fmt02X (n : Int) = [digitChar (n / 16), digitChar (n % 16)] := by
  have hd := digitsOf16_byte n h
  simp only [fmt02X, Int.natAbs_ofNat, hd]
  rw [if_neg (by omega)]
  by_cases h16 : n < 16
  · have e1 : n / 16 = 0 := by omega
    have e2 : n % 16 = n := by omega
    simp [h16, e1, e2, digitChar]
  · simp [h16]

theorem digitChar_range (d : Nat) (h : d < 16) :
    (48 ≤ digitChar d ∧ digitChar d ≤ 57) ∨ (65 ≤ digitChar d ∧ digitChar d ≤ 70) := by
  unfold digitChar
  split_ifs <;> omega

theorem hexVal_digitChar (d : Nat) (h : d < 16) : hexVal (digitChar d) = some d := by
  unfold digitChar hexVal
  by_cases h10 : d < 10
  · rw [if_pos h10, if_pos (by omega)]
    congr 1
    omega
  · rw [if_neg h10, if_neg (by omega), if_neg (by omega), if_pos (by omega)]
    congr 1
    omega

theorem ParseUint_fmt02X (n : Nat) (h : n < 256) : ParseUint (fmt02X (n : Int)) = some n := by
  rw [fmt02X_byte n h]
  have h1 : n / 16 < 16 := by omega
  have h2 : n % 16 < 16 := Nat.mod_lt _ (by decide)
  simp only [ParseUint, hexValue, hexVal_digitChar _ h1, hexVal_digitChar _ h2]
  rw [if_neg (by simp)]
  have e : (0 * 16 + n / 16) * 16 + n % 16 = n := by omega
  rw [e, if_neg (by omega)]

theorem wrap32_id (t : Int) (h1 : -(2 ^ 31) ≤ t) (h2 : t < 2 ^ 31) : wrap32 t = t := by
  unfold wrap32
  norm_num at h1 h2 ⊢
  omega

theorem setTimesAt_last (acc : List PatternEl) (e : PatternEl) (t : Int) :
    setTimesAt (acc ++ [e]) acc.length t = acc ++ [{ e with times := t }] := by
  induction acc with
  | nil => rfl
  | cons a acc ih => simp [setTimesAt, ih]

theorem setTimes_last (acc : List PatternEl) (e : PatternEl) (t : Int) :
    setTimes (acc ++ [e]) (((acc ++ [e]).length : Int) - 1) t =
      acc ++ [{ e with times := t }] := by
  unfold setTimes
  have : (((acc ++ [e]).length : Int) - 1).toNat = acc.length := by
    simp
  rw [this, setTimesAt_last]

/-! ## Parsing a rendered pattern -/

theorem elText_eq_flatten (el : PatternEl) : elText el = (elTokens el).flatten := by
  unfold elText elTokens
  split_ifs <;> simp

theorem fmtDec_pos (t : Int) (h : 0 ≤ t) : fmtDec t = fmtNatDec t.natAbs := by
  unfold fmtDec
  rw [if_neg (by omega)]

theorem not_mem_fmtDec (t : Int) (h : 0 ≤ t) : 93 ∉ fmtDec t := by
  rw [fmtDec_pos t h]
  intro hc
  have := (isDigit_iff 93).1 (fmtNatDec_isDigit _ 93 hc)
  omega

/-- The value text of a valid element: two characters, the first neither `[` nor a space. -/
theorem valueText_valid (el : PatternEl) (h : ValidEl el) :
    ∃ a b, (if el.value = -1 then [63, 63] else fmt02X el.value) = [a, b] ∧ a ≠ 91 ∧
      ((el.value = -1 ∧ a = 63 ∧ b = 63) ∨ (el.value ≠ -1 ∧ a ≠ 63)) := by
  obtain ⟨hv, _, _⟩ := h
  by_cases hw : el.value = -1
  · exact ⟨63, 63, by rw [if_pos hw], by decide, Or.inl ⟨hw, rfl, rfl⟩⟩
  · rcases hv with hv | ⟨h0, h255⟩
    · exact absurd hv hw
    · obtain ⟨n, hn⟩ := Int.eq_ofNat_of_zero_le h0
      have hlt : n < 256 := by omega
      have hr := digitChar_range (n / 16) (by omega)
      refine ⟨digitChar (n / 16), digitChar (n % 16), ?_, by omega, Or.inr ⟨hw, by omega⟩⟩
      rw [if_neg hw, hn, fmt02X_byte n hlt]

theorem lex_elText (el : PatternEl) (h : ValidEl el) (i : Nat) (rest : List Nat) :
    ∃ j, lex i (elText el ++ rest) = consToks (elTokens el) (lex j rest) := by
  obtain ⟨a, b, hab, ha, hcase⟩ := valueText_valid el h
  have hstep : ∀ tail, lex i (a :: b :: tail) = consTok [a, b] (lex (i + 2) tail) := by
    intro tail
    rcases hcase with ⟨_, h1, h2⟩ | ⟨_, h1⟩
    · subst h1 h2; exact lex_wild i tail
    · exact lex_hex i a b tail ha (fun hh => h1 hh.1)
  unfold elText elTokens
  rw [hab]
  by_cases ht : el.times > 1
  · rw [if_pos ht, if_pos ht]
    have hsc := scanClose_append (fmtDec el.times) rest (not_mem_fmtDec _ (by omega))
    refine ⟨i + 2 + (fmtDec el.times).length + 2, ?_⟩
    have e : [a, b] ++ (91 :: fmtDec el.times ++ [93]) ++ rest =
        a :: b :: 91 :: (fmtDec el.times ++ 93 :: rest) := by simp
    rw [e, hstep, lex_rep _ _ _ _ hsc]
    rfl
  · rw [if_neg ht, if_neg ht]
    refine ⟨i + 2, ?_⟩
    have e : [a, b] ++ [] ++ rest = a :: b :: rest := by simp
    rw [e, hstep]
    rfl

theorem consToks_ok (ts toks : List (List Nat)) :
    consToks ts (Except.ok toks) = Except.ok (ts ++ toks) := by
  induction ts with
  | nil => rfl
  | cons t ts ih =>
    simp only [consToks, List.foldr_cons] at ih ⊢
    rw [ih]
    rfl

theorem lex_render (els : List PatternEl) (h : ∀ el ∈ els, ValidEl el) (i : Nat) :
    lex i (els.map elText).flatten = Except.ok (els.map elTokens).flatten := by
  induction els generalizing i with
  | nil => rfl
  | cons el els ih =>
    simp only [List.map_cons, List.flatten_cons]
    obtain ⟨j, hj⟩ := lex_elText el (h el (List.mem_cons_self _ _)) i (els.map elText).flatten
    rw [hj, ih (fun e he => h e (List.mem_cons_of_mem _ he)) j, consToks_ok]

theorem repeat_interior (d : List Nat) : ((91 :: d ++ [93]).drop 1).dropLast = d := by
  simp

theorem buildLoop_value (tok : List Nat) (toks : List (List Nat)) (acc : List PatternEl)
    (lastIdx : Int) (v : Int) (hh : tok.head? ≠ some 91)
    (hv : (tok = [63, 63] ∧ v = -1) ∨ (tok ≠ [63, 63] ∧ ∃ n : Nat, ParseUint tok = some n ∧
      v = (n : Int))) :
    buildLoop (tok :: toks) acc lastIdx = buildLoop toks (acc ++ [⟨v, 1⟩]) (lastIdx + 1) := by
  rw [buildLoop, if_neg hh]
  rcases hv with ⟨h1, h2⟩ | ⟨h1, n, h2, h3⟩
  · rw [if_pos h1, h2]
  · rw [if_neg h1, h2, h3]

theorem buildLoop_repeat (d : List Nat) (toks : List (List Nat)) (acc : List PatternEl)
    (lastIdx : Int) (n : Int) (hl : lastIdx ≠ -1) (ha : Atoi d = some n) (hn : 1 ≤ n) :
    buildLoop ((91 :: d ++ [93]) :: toks) acc lastIdx =
      buildLoop toks (setTimes acc lastIdx (wrap32 n)) lastIdx := by
  rw [buildLoop, if_pos (by simp), if_neg hl, repeat_interior, ha]
  simp only
  rw [if_neg (by omega)]

theorem buildLoop_elTokens (el : PatternEl) (h : ValidEl el) (more : List (List Nat))
    (acc : List PatternEl) :
    buildLoop (elTokens el ++ more) acc ((acc.length : Int) - 1) =
      buildLoop more (acc ++ [el]) (((acc ++ [el]).length : Int) - 1) := by
  obtain ⟨a, b, hab, ha, hcase⟩ := valueText_valid el h
  obtain ⟨hv, ht1, ht2⟩ := h
  have hidx : ∀ x : PatternEl, (acc.length : Int) - 1 + 1 = ((acc ++ [x]).length : Int) - 1 := by
    intro x; simp
  have hval : ∀ toks, buildLoop ([a, b] :: toks) acc ((acc.length : Int) - 1) =
      buildLoop toks (acc ++ [⟨el.value, 1⟩])
        (((acc ++ [(⟨el.value, 1⟩ : PatternEl)]).length : Int) - 1) := by
    intro toks
    rw [← hidx]
    apply buildLoop_value
    · simp only [List.head?_cons, ne_eq, Option.some.injEq]; exact ha
    · rcases hcase with ⟨h1, h2, h3⟩ | ⟨h1, h2⟩
      · left; subst h2 h3; exact ⟨rfl, h1⟩
      · right
        refine ⟨by simp [h2], ?_⟩
        rcases hv with hv | ⟨h0, h255⟩
        · exact absurd hv h1
        · obtain ⟨n, hn⟩ := Int.eq_ofNat_of_zero_le h0
          refine ⟨n, ?_, hn⟩
          rw [if_neg h1, hn] at hab
          rw [← hab]
          exact ParseUint_fmt02X n (by omega)
  unfold elTokens
  rw [hab]
  by_cases ht : el.times > 1
  · rw [if_pos ht]
    simp only [List.cons_append, List.nil_append]
    rw [hval]
    have hat := Atoi_fmtDec el.times (by omega) (by norm_num at ht2 ⊢; omega)
    have hb := buildLoop_repeat (fmtDec el.times) more (acc ++ [⟨el.value, 1⟩])
      (((acc ++ [(⟨el.value, 1⟩ : PatternEl)]).length : Int) - 1) el.times
      (by simp) hat ht1
    simp only [List.cons_append] at hb
    rw [hb, setTimes_last,
      wrap32_id _ (by norm_num; omega) (by norm_num at ht2 ⊢; omega)]
    simp
  · rw [if_neg ht]
    simp only [List.cons_append, List.nil_append]
    rw [hval]
    have e : el = ⟨el.value, 1⟩ := by
      cases el with
      | mk v t =>
        simp only [PatternEl.mk.injEq, true_and]
        simp only at ht ht1
        omega
    rw [← e]

theorem buildLoop_render (els : List PatternEl) (h : ∀ el ∈ els, ValidEl el)
    (acc : List PatternEl) :
    buildLoop (els.map elTokens).flatten acc ((acc.length : Int) - 1) = (acc ++ els, none) := by
  induction els generalizing acc with
  | nil => simp [buildLoop]
  | cons el els ih =>
    simp only [List.map_cons, List.flatten_cons]
    rw [buildLoop_elTokens el (h el (List.mem_cons_self _ _)),
      ih (fun e he => h e (List.mem_cons_of_mem _ he))]
    simp

/-! ## Rendering -/

theorem foldl_render (els : List PatternEl) (acc : List Nat) :
    els.foldl (fun sb el => sb ++ (elText el ++ [32])) acc =
      acc ++ (els.map (fun el => elText el ++ [32])).flatten := by
  induction els generalizing acc with
  | nil => simp
  | cons el els ih => simp [ih]

theorem digitsOf_chars (b : Nat) (hb : 0 < b) (hb16 : b ≤ 16) (n : Nat) :
    ∀ c ∈ (digitsOf b n).map digitChar, (48 ≤ c ∧ c ≤ 57) ∨ (65 ≤ c ∧ c ≤ 70) := by
  intro c hc
  simp only [digitsOf, List.mem_map, List.mem_reverse] at hc
  obtain ⟨d, hd, rfl⟩ := hc
  have := lsdDigits_lt b hb _ _ d hd
  exact digitChar_range d (by omega)

theorem elText_chars (el : PatternEl) :
    ∀ c ∈ elText el, c = 45 ∨ c = 63 ∨ c = 91 ∨ c = 93 ∨ (48 ≤ c ∧ c ≤ 57) ∨
      (65 ≤ c ∧ c ≤ 70) := by
  intro c hc
  have hx : ∀ c ∈ fmt02X el.value, c = 45 ∨ (48 ≤ c ∧ c ≤ 57) ∨ (65 ≤ c ∧ c ≤ 70) := by
    intro c hc
    have hd := digitsOf_chars 16 (by decide) (by decide) el.value.natAbs
    simp only [fmt02X] at hc
    split_ifs at hc
    · simp only [List.mem_cons] at hc
      rcases hc with hc | hc
      · exact Or.inl hc
      · exact Or.inr (hd c hc)
    · simp only [List.mem_cons] at hc
      rcases hc with hc | hc
      · right; left; omega
      · exact Or.inr (hd c hc)
    · exact Or.inr (hd c hc)
  have hdec : ∀ c ∈ fmtDec el.times, c = 45 ∨ (48 ≤ c ∧ c ≤ 57) ∨ (65 ≤ c ∧ c ≤ 70) := by
    intro c hc
    have hd := digitsOf_chars 10 (by decide) (by decide) el.times.natAbs
    simp only [fmtDec, fmtNatDec] at hc
    split_ifs at hc
    · simp only [List.mem_cons] at hc
      rcases hc with hc | hc
      · exact Or.inl hc
      · exact Or.inr (hd c hc)
    · exact Or.inr (hd c hc)
  simp only [elText, List.mem_append] at hc
  rcases hc with hc | hc
  · split_ifs at hc
    · simp only [List.mem_cons, List.mem_singleton, List.not_mem_nil, or_false, or_self] at hc
      omega
    · rcases hx c hc with h | h | h <;> omega
  · split_ifs at hc
    · simp only [List.mem_cons, List.mem_append, List.mem_singleton, List.not_mem_nil,
        or_false] at hc
      rcases hc with (hc | hc) | hc
      · omega
      · rcases hdec c hc with h | h | h <;> omega
      · omega
    · simp at hc

theorem removeSpaces_dropWhile (x : List Nat) (h : ∀ c ∈ x, isSpaceByte c = true → c = 32) :
    removeSpaces (x.dropWhile isSpaceByte) = removeSpaces x := by
  induction x with
  | nil => rfl
  | cons c x ih =>
    have ih1 := ih (fun e he => h e (List.mem_cons_of_mem _ he))
    simp only [List.dropWhile_cons]
    by_cases hc : isSpaceByte c = true
    · rw [if_pos hc, ih1]
      have := h c (List.mem_cons_self _ _) hc
      subst this
      simp [removeSpaces]
    · rw [if_neg hc]

theorem removeSpaces_reverse (x : List Nat) :
    removeSpaces x.reverse = (removeSpaces x).reverse := by
  simp [removeSpaces, List.filter_reverse]

theorem removeSpaces_TrimSpace (x : List Nat) (h : ∀ c ∈ x, isSpaceByte c = true → c = 32) :
    removeSpaces (TrimSpace x) = removeSpaces x := by
  unfold TrimSpace
  rw [removeSpaces_reverse, removeSpaces_dropWhile, removeSpaces_reverse, List.reverse_reverse,
    removeSpaces_dropWhile x h]
  intro c hc
  simp only [List.mem_reverse] at hc
  exact h c ((List.dropWhile_sublist _).subset hc)

theorem removeSpaces_render (els : List PatternEl) :
    removeSpaces (els.map (fun el => elText el ++ [32])).flatten = (els.map elText).flatten := by
  induction els with
  | nil => rfl
  | cons el els ih =>
    simp only [List.map_cons, List.flatten_cons]
    unfold removeSpaces at ih ⊢
    rw [List.filter_append, List.filter_append, ih]
    congr 1
    have : (elText el).filter (fun c => decide (c ≠ 32)) = elText el := by
      rw [List.filter_eq_self]
      intro c hc
      have := elText_chars el c hc
      simp only [ne_eq, decide_not, Bool.not_eq_eq_eq_not, Bool.not_true,
        decide_eq_false_iff_not]
      omega
    rw [this]
    simp

theorem removeSpaces_String (p : Pattern) :
    removeSpaces p.String = (p.elements.map elText).flatten := by
  unfold Pattern.String
  rw [foldl_render, List.nil_append, removeSpaces_TrimSpace, removeSpaces_render]
  intro c hc hs
  simp only [List.mem_flatten, List.mem_map] at hc
  obtain ⟨l, ⟨el, _, rfl⟩, hc⟩ := hc
  simp only [List.mem_append, List.mem_singleton] at hc
  rcases hc with hc | hc
  · have := elText_chars el c hc
    simp only [isSpaceByte, Bool.or_eq_true, decide_eq_true_eq] at hs
    omega
  · exact hc

/-- Parsing the rendering of valid elements gives the elements back. -/
theorem FromHexString_String_valid (p : Pattern) (h : ∀ el ∈ p.elements, ValidEl el) :
    FromHexString p.String = (p.elements, none) := by
  unfold FromHexString
  rw [tokenize_eq_lex, removeSpaces_String, lex_render _ h]
  have := buildLoop_render p.elements h []
  simpa using this

/-- C5. For every pattern whose elements each hold the wildcard or a byte `0..255` and a repeat
count between 1 and `2^31 - 1`, `FromHexString(p.String())` succeeds and yields exactly the
elements of `p`; so parsing the canonical text `p.String()` and rendering the result gives the
text back, and the parsed pattern's `Length` is the sum of the repeat counts. -/
theorem FromHexString_String_roundtrip (p : Pattern) (h : ∀ el ∈ p.elements, ValidEl el) :
    FromHexString p.String = (p.elements, none) ∧
    (Parse p.String).2 = none ∧
    (Parse p.String).1.String = p.String ∧
    (Parse p.String).1.Length = (p.elements.map PatternEl.times).sum := by
  have h1 := FromHexString_String_valid p h
  refine ⟨h1, ?_, ?_, ?_⟩
  · simp [Parse, h1]
  · simp [Parse, h1]
  · simp only [Parse, h1]
    exact Length_eq_sum p

/-- C5 witness: the pattern `"12 ??[3] FF"`, whose rendering is that text. -/
theorem FromHexString_String_roundtrip_witness :
    (∀ el ∈ renderTestPattern.elements, ValidEl el) ∧
    renderTestPattern.String = str "12 ??[3] FF" ∧
    (FromHexString renderTestPattern.String = (renderTestPattern.elements, none) ∧
    (Parse renderTestPattern.String).2 = none ∧
    (Parse renderTestPattern.String).1.String = renderTestPattern.String ∧
    (Parse renderTestPattern.String).1.Length =
      (renderTestPattern.elements.map PatternEl.times).sum) :=
  ⟨by decide, by decide, FromHexString_String_roundtrip renderTestPattern (by decide)⟩

/-- C2 (failing input). On a 64-bit platform `FromHexString` accepts the repeat blocks
`[4294967296]` and `[4294967295]`: `Atoi` returns `n ≥ 1`, the check `n < 1` passes, and
`int32(n)` stores the repeat counts `0` and `-1`. -/
theorem FromHexString_repeat_truncated :
    FromHexString (str "AA[4294967296]") = ([⟨0xAA, 0⟩], none) ∧
    FromHexString (str "AA[4294967295]") = ([⟨0xAA, -1⟩], none) := by
  decide

/-- C3 counterexample: the character U+0100 gives an element with value 256, which is not the
code point narrowed to a byte (that would be 0) and is outside `0..255`. -/
theorem FromAnsiString_not_narrowed :
    FromAnsiString [0x100] = [⟨256, 1⟩] ∧
    FromAnsiString [0x100] ≠ [⟨((0x100 % 256 : Nat) : Int), 1⟩] ∧
    ¬ ((256 : Int) ≤ 255) := by
  decide

/-- C3 (amended). `FromAnsiString` produces exactly one element per character, each with
repeat 1 and no wildcard, whose value is the character's code point itself; the value is the
code point modulo 256, and lies in `0..255`, exactly when the code point is at most 255. -/
theorem FromAnsiString_elements (s : List Nat) :
    (FromAnsiString s).length = s.length ∧
    ∀ (i c : Nat), s[i]? = some c →
      ∃ el, (FromAnsiString s)[i]? = some el ∧ el.times = 1 ∧ el.value ≠ -1 ∧
        el.value = (c : Int) ∧
        (el.value = ((c % 256 : Nat) : Int) ↔ c ≤ 255) ∧
        ((0 ≤ el.value ∧ el.value ≤ 255) ↔ c ≤ 255) := by
  refine ⟨by simp [FromAnsiString], ?_⟩
  intro i c hc
  refine ⟨⟨(c : Int), 1⟩, by simp [FromAnsiString, hc], rfl, ?_, rfl, ?_, ?_⟩
  · simp only [ne_eq]; omega
  · simp only; omega
  · simp only; omega

/-- C4 (failing input). `Parse` accepts `"AA[2147483648]"` and stores the repeat count
`int32(2^31) = -2^31`; `String` renders that pattern as `"AA"`, and parsing `"AA"` yields a
repeat count of 1, not the parsed pattern's. -/
theorem Parse_String_roundtrip_fails :
    Parse (str "AA[2147483648]") = (⟨[⟨0xAA, -2147483648⟩]⟩, none) ∧
    (Parse (str "AA[2147483648]")).1.String = str "AA" ∧
    Parse (Parse (str "AA[2147483648]")).1.String = (⟨[⟨0xAA, 1⟩]⟩, none) := by
  decide

/-! ## The element builder -/

theorem buildLoop_cons (tok : List Nat) (toks : List (List Nat)) (acc : List PatternEl)
    (idx : Int) :
    buildLoop (tok :: toks) acc idx =
      match buildStep tok acc idx with
      | Except.error e => (acc, some e)
      | Except.ok st => buildLoop toks st.1 st.2 := by
  rw [buildLoop]
  unfold buildStep
  split_ifs with h1 h2 h3
  · rfl
  · cases Atoi (tok.drop 1).dropLast with
    | none => rfl
    | some n =>
      simp only
      split_ifs <;> rfl
  · rfl
  · cases ParseUint tok with
    | none => rfl
    | some b => rfl

/-- The builder keeps `lastIdx` equal to the index of the last element. -/
theorem buildStep_lastIdx (tok : List Nat) (acc acc1 : List PatternEl) (idx1 : Int)
    (h : buildStep tok acc ((acc.length : Int) - 1) = Except.ok (acc1, idx1)) :
    idx1 = (acc1.length : Int) - 1 := by
  have hset : ∀ (l : List PatternEl) (i : Nat) (t : Int), (setTimesAt l i t).length = l.length := by
    intro l
    induction l with
    | nil => intro i t; rfl
    | cons a l ih =>
      intro i t
      cases i with
      | zero => rfl
      | succ i => simp [setTimesAt, ih]
  unfold buildStep at h
  by_cases h1 : tok.head? = some 91
  · rw [if_pos h1] at h
    by_cases h2 : (acc.length : Int) - 1 = -1
    · rw [if_pos h2] at h
      cases h
    · rw [if_neg h2] at h
      cases ha : Atoi (tok.drop 1).dropLast with
      | none => rw [ha] at h; cases h
      | some n =>
        rw [ha] at h
        simp only at h
        by_cases h3 : n < 1
        · rw [if_pos h3] at h
          cases h
        · rw [if_neg h3] at h
          simp only [Except.ok.injEq, Prod.mk.injEq] at h
          obtain ⟨e1, e2⟩ := h
          rw [← e1, ← e2, setTimes, hset]
  · rw [if_neg h1] at h
    by_cases h2 : tok = [63, 63]
    · rw [if_pos h2] at h
      simp only [Except.ok.injEq, Prod.mk.injEq] at h
      obtain ⟨e1, e2⟩ := h
      rw [← e1, ← e2]
      simp
    · rw [if_neg h2] at h
      cases hp : ParseUint tok with
      | none => rw [hp] at h; cases h
      | some b =>
        rw [hp] at h
        simp only [Except.ok.injEq, Prod.mk.injEq] at h
        obtain ⟨e1, e2⟩ := h
        rw [← e1, ← e2]
        simp

/-- A failing run of the builder stops at one token: the tokens before it were built without
an error into the elements that are left behind. -/
theorem buildLoop_error (toks : List (List Nat)) (acc out : List PatternEl) (idx : Int)
    (e : ParseError) (h : buildLoop toks acc idx = (out, some e)) :
    ∃ pre tok post, toks = pre ++ tok :: post ∧ buildLoop pre acc idx = (out, none) ∧
      buildLoop (pre ++ [tok]) acc idx = (out, some e) := by
  induction toks generalizing acc idx with
  | nil => simp [buildLoop] at h
  | cons tok toks ih =>
    rw [buildLoop_cons] at h
    cases hs : buildStep tok acc idx with
    | error e1 =>
      simp only [hs, Prod.mk.injEq, Option.some.injEq] at h
      obtain ⟨h1, h2⟩ := h
      subst h1 h2
      refine ⟨[], tok, toks, rfl, by simp [buildLoop], ?_⟩
      simp only [List.nil_append]
      rw [buildLoop_cons, hs]
    | ok st =>
      simp only [hs] at h
      obtain ⟨pre, tok1, post, h1, h2, h3⟩ := ih st.1 st.2 h
      refine ⟨tok :: pre, tok1, post, by rw [h1]; rfl, ?_, ?_⟩
      · rw [buildLoop_cons, hs]; exact h2
      · rw [List.cons_append, buildLoop_cons, hs]; exact h3

/-- C8 counterexample: `"AA GG"` fails with "invalid hex token" and leaves the element built
from `AA` in the pattern. -/
theorem FromHexString_partial_pattern :
    FromHexString (str "AA GG") = ([⟨0xAA, 1⟩], some (ParseError.invalidHex (str "GG"))) ∧
    Parse (str "AA GG") = (⟨[⟨0xAA, 1⟩]⟩, some (ParseError.invalidHex (str "GG"))) := by
  decide

/-- C8 (amended). When `FromHexString` returns an error raised by the tokenizer, the pattern is
left with no elements; when the error is raised by the element builder, the pattern is left
with exactly the elements built from the tokens that precede the offending token. -/
theorem FromHexString_error_state (input : List Nat) (e : ParseError)
    (h : (FromHexString input).2 = some e) :
    (tokenize input = Except.error e ∧ (FromHexString input).1 = []) ∨
    (∃ pre tok post, tokenize input = Except.ok (pre ++ tok :: post) ∧
      buildLoop pre [] (-1) = ((FromHexString input).1, none) ∧
      buildLoop (pre ++ [tok]) [] (-1) = ((FromHexString input).1, some e)) := by
  unfold FromHexString at h ⊢
  cases ht : tokenize input with
  | error e1 =>
    simp only [ht, Option.some.injEq] at h
    subst h
    exact Or.inl ⟨rfl, rfl⟩
  | ok toks =>
    simp only [ht] at h ⊢
    right
    obtain ⟨pre, tok, post, h1, h2, h3⟩ :=
      buildLoop_error toks [] (buildLoop toks [] (-1)).1 (-1) e (by rw [← h])
    exact ⟨pre, tok, post, by rw [h1], h2, h3⟩

/-- C8 witness: the input `"AA GG"`. -/
theorem FromHexString_error_state_witness :
    (FromHexString (str "AA GG")).2 = some (ParseError.invalidHex (str "GG")) ∧
    ((tokenize (str "AA GG") = Except.error (ParseError.invalidHex (str "GG")) ∧
        (FromHexString (str "AA GG")).1 = []) ∨
      (∃ pre tok post, tokenize (str "AA GG") = Except.ok (pre ++ tok :: post) ∧
        buildLoop pre [] (-1) = ((FromHexString (str "AA GG")).1, none) ∧
        buildLoop (pre ++ [tok]) [] (-1) =
          ((FromHexString (str "AA GG")).1, some (ParseError.invalidHex (str "GG"))))) :=
  ⟨by decide, FromHexString_error_state (str "AA GG") _ (by decide)⟩

/-- The recursion bound of `tokenize` is never exhausted. -/
theorem tokenize_fuel (input : List Nat) :
    tokenize input ≠ Except.error ParseError.outOfFuel :=
  tokenizeLoop_ne_outOfFuel _ 0 _ (le_refl _)

/-- The tokens are shaped as the tokenizer's three cases say and concatenate to the text. -/
theorem lex_shape (n : Nat) (s : List Nat) (hn : s.length ≤ n) (i : Nat)
    (toks : List (List Nat)) (h : lex i s = Except.ok toks) :
    s = toks.flatten ∧ ∀ t ∈ toks, TokShape t := by
  induction n generalizing s i toks with
  | zero =>
    have : s = [] := List.length_eq_zero.1 (by omega)
    subst this
    rw [lex_nil] at h
    cases h
    simp
  | succ n ih =>
    cases s with
    | nil =>
      rw [lex_nil] at h
      cases h
      simp
    | cons c cs =>
      simp only [List.length_cons] at hn
      rcases lex_cases i c cs with ⟨rest, h1, h2, h3⟩ | ⟨_, _, h3⟩ | ⟨d, rest, h1, h2, hd, h3⟩ |
        ⟨_, _, h3⟩ | ⟨c2, rest, h1, hq, h2, h3⟩
      · rw [h3] at h
        obtain ⟨toks1, e1, e2⟩ := consTok_ok _ _ _ h
        obtain ⟨ih1, ih2⟩ := ih rest (by rw [h2] at hn; simp at hn; omega) _ _ e1
        subst e2
        refine ⟨by rw [h1, h2, ih1]; rfl, ?_⟩
        intro t ht
        simp only [List.mem_cons] at ht
        rcases ht with ht | ht
        · exact Or.inl ht
        · exact ih2 t ht
      · rw [h3] at h; cases h
      · rw [h3] at h
        obtain ⟨toks1, e1, e2⟩ := consTok_ok _ _ _ h
        obtain ⟨ih1, ih2⟩ := ih rest (by rw [h2] at hn; simp at hn; omega) _ _ e1
        subst e2
        refine ⟨by rw [h1, h2, ih1]; simp, ?_⟩
        intro t ht
        simp only [List.mem_cons] at ht
        rcases ht with ht | ht
        · exact Or.inr (Or.inl ⟨d, ht, hd⟩)
        · exact ih2 t ht
      · rw [h3] at h; cases h
      · rw [h3] at h
        obtain ⟨toks1, e1, e2⟩ := consTok_ok _ _ _ h
        obtain ⟨ih1, ih2⟩ := ih rest (by rw [h2] at hn; simp at hn; omega) _ _ e1
        subst e2
        refine ⟨by rw [h2, ih1]; rfl, ?_⟩
        intro t ht
        simp only [List.mem_cons] at ht
        rcases ht with ht | ht
        · exact Or.inr (Or.inr ⟨c, c2, ht, h1⟩)
        · exact ih2 t ht

theorem Atoi_pos_inv (d : List Nat) (n : Int) (h : Atoi d = some n) (hn : 1 ≤ n) :
    ∃ sign ds, d = sign ++ ds ∧ (sign = [] ∨ sign = [43]) ∧ ds ≠ [] ∧
      (∀ c ∈ ds, isDigit c = true) ∧ n = (decValue ds : Int) ∧ decValue ds < 2 ^ 63 := by
  have key : ∀ (neg : Bool) (ds : List Nat), splitSign d = (neg, ds) →
      neg = false ∧ ds ≠ [] ∧ (∀ c ∈ ds, isDigit c = true) ∧ n = (decValue ds : Int) ∧
        decValue ds < 2 ^ 63 := by
    intro neg ds hs
    unfold Atoi at h
    simp only [hs] at h
    by_cases h1 : ds = []
    · rw [if_pos h1] at h; cases h
    · rw [if_neg h1] at h
      by_cases h2 : ¬ ds.all isDigit = true
      · rw [if_pos h2] at h; cases h
      · rw [if_neg h2] at h
        have hall : ∀ c ∈ ds, isDigit c = true := by
          simpa [List.all_eq_true] using h2
        cases neg with
        | true =>
          simp only [if_true] at h
          split_ifs at h
          simp only [Option.some.injEq] at h
          omega
        | false =>
          simp only [Bool.false_eq_true, if_false] at h
          split_ifs at h with h3
          simp only [Option.some.injEq] at h
          exact ⟨rfl, h1, hall, h.symm, by omega⟩
  cases d with
  | nil =>
    obtain ⟨_, h1, _⟩ := key false [] rfl
    exact absurd rfl h1
  | cons c rest =>
    by_cases hp : c = 43
    · have hs : splitSign (c :: rest) = (false, rest) := by simp [splitSign, hp]
      obtain ⟨_, h1, h2, h3, h4⟩ := key _ _ hs
      exact ⟨[43], rest, by simp [hp], Or.inr rfl, h1, h2, h3, h4⟩
    · by_cases hm : c = 45
      · have hs : splitSign (c :: rest) = (true, rest) := by simp [splitSign, hm]
        obtain ⟨h0, _⟩ := key _ _ hs
        cases h0
      · have hs : splitSign (c :: rest) = (false, c :: rest) := by simp [splitSign, hp, hm]
        obtain ⟨_, h1, h2, h3, h4⟩ := key _ _ hs
        exact ⟨[], c :: rest, rfl, Or.inl rfl, h1, h2, h3, h4⟩

theorem hexVal_isHexDigit (c d : Nat) (h : hexVal c = some d) : isHexDigit c = true := by
  unfold hexVal at h
  simp only [isHexDigit, Bool.or_eq_true, Bool.and_eq_true, decide_eq_true_eq]
  split_ifs at h with h1 h2 h3
  · exact Or.inl (Or.inl h1)
  · exact Or.inr h2
  · exact Or.inl (Or.inr h3)

theorem ParseUint_pair (a b v : Nat) (h : ParseUint [a, b] = some v) :
    isHexDigit a = true ∧ isHexDigit b = true := by
  unfold ParseUint at h
  rw [if_neg (by simp)] at h
  simp only [hexValue] at h
  cases ha : hexVal a with
  | none => simp [ha] at h
  | some x =>
    cases hb : hexVal b with
    | none => simp [ha, hb] at h
    | some y => exact ⟨hexVal_isHexDigit a x ha, hexVal_isHexDigit b y hb⟩

/-- What a successful iteration of the builder did. -/
theorem buildStep_ok_cases (tok : List Nat) (acc acc1 : List PatternEl) (idx idx1 : Int)
    (h : buildStep tok acc idx = Except.ok (acc1, idx1)) :
    (tok.head? = some 91 ∧ idx ≠ -1 ∧ idx1 = idx ∧
      ∃ n, Atoi (tok.drop 1).dropLast = some n ∧ 1 ≤ n ∧
        acc1 = setTimes acc idx (wrap32 n)) ∨
    (tok.head? ≠ some 91 ∧ idx1 = idx + 1 ∧
      ((tok = [63, 63] ∧ acc1 = acc ++ [⟨-1, 1⟩]) ∨
       (tok ≠ [63, 63] ∧ ∃ b : Nat, ParseUint tok = some b ∧
          acc1 = acc ++ [⟨(b : Int), 1⟩]))) := by
  unfold buildStep at h
  by_cases h1 : tok.head? = some 91
  · rw [if_pos h1] at h
    by_cases h2 : idx = -1
    · rw [if_pos h2] at h
      cases h
    · rw [if_neg h2] at h
      cases ha : Atoi (tok.drop 1).dropLast with
      | none => rw [ha] at h; cases h
      | some n =>
        rw [ha] at h
        simp only at h
        by_cases h3 : n < 1
        · rw [if_pos h3] at h
          cases h
        · rw [if_neg h3] at h
          simp only [Except.ok.injEq, Prod.mk.injEq] at h
          exact Or.inl ⟨h1, h2, h.2.symm, n, rfl, by omega, h.1.symm⟩
  · rw [if_neg h1] at h
    by_cases h2 : tok = [63, 63]
    · rw [if_pos h2] at h
      simp only [Except.ok.injEq, Prod.mk.injEq] at h
      exact Or.inr ⟨h1, h.2.symm, Or.inl ⟨h2, h.1.symm⟩⟩
    · rw [if_neg h2] at h
      cases hp : ParseUint tok with
      | none => rw [hp] at h; cases h
      | some b =>
        rw [hp] at h
        simp only [Except.ok.injEq, Prod.mk.injEq] at h
        exact Or.inr ⟨h1, h.2.symm, Or.inr ⟨h2, b, rfl, h.1.symm⟩⟩

/-- The text of the tokens a successful run of the builder consumed: repeat blocks for the
element built last (none when there is no such element), then whole elements. -/
theorem buildLoop_grammar (toks : List (List Nat)) (acc out : List PatternEl) (idx : Int)
    (hshape : ∀ t ∈ toks, TokShape t) (hidx : -1 ≤ idx)
    (h : buildLoop toks acc idx = (out, none)) :
    ∃ rs rest, toks.flatten = rs.flatten ++ rest ∧ (∀ r ∈ rs, IsRepeatAccepted r) ∧
      AcceptedGrammar rest ∧ (idx = -1 → rs = []) := by
  induction toks generalizing acc idx with
  | nil => exact ⟨[], [], rfl, by simp, AcceptedGrammar.nil, fun _ => rfl⟩
  | cons tok toks ih =>
    rw [buildLoop_cons] at h
    have hsh := hshape tok (List.mem_cons_self _ _)
    have hrest : ∀ t ∈ toks, TokShape t := fun t ht => hshape t (List.mem_cons_of_mem _ ht)
    cases hs : buildStep tok acc idx with
    | error e => simp [hs] at h
    | ok st =>
      obtain ⟨acc1, idx1⟩ := st
      simp only [hs] at h
      rcases buildStep_ok_cases tok acc acc1 idx idx1 hs with
        ⟨h1, h2, h3, n, h4, h5, _⟩ | ⟨h1, h3, hv⟩
      · obtain ⟨rs, rest, e1, e2, e3, _⟩ := ih acc1 idx1 hrest (by omega) h
        have hrep : IsRepeatAccepted tok := by
          rcases hsh with hw | ⟨d, hd, _⟩ | ⟨a, b, hab, ha⟩
          · rw [hw] at h1; simp at h1
          · rw [hd, repeat_interior] at h4
            obtain ⟨sign, ds, k1, k2, k3, k4, k5, k6⟩ := Atoi_pos_inv d n h4 h5
            refine ⟨sign, ds, by rw [hd, k1], k2, k3, k4, ?_, k6⟩
            omega
          · rw [hab] at h1
            simp only [List.head?_cons, Option.some.injEq] at h1
            exact absurd h1 ha
        refine ⟨tok :: rs, rest, by simp [e1], ?_, e3, fun hh => absurd hh h2⟩
        intro r hr
        simp only [List.mem_cons] at hr
        rcases hr with hr | hr
        · rw [hr]; exact hrep
        · exact e2 r hr
      · obtain ⟨rs, rest, e1, e2, e3, _⟩ := ih acc1 idx1 hrest (by omega) h
        have hval : IsValueText tok := by
          rcases hv with ⟨hw, _⟩ | ⟨hw, b, hp, _⟩
          · exact Or.inl hw
          · rcases hsh with hw2 | ⟨d, hd, _⟩ | ⟨a, c, hab, _⟩
            · exact absurd hw2 hw
            · rw [hd] at h1; simp at h1
            · rw [hab] at hp
              exact Or.inr ⟨a, c, hab, ParseUint_pair a c b hp⟩
        refine ⟨[], tok ++ rs.flatten ++ rest, by simp [e1], by simp, ?_, fun _ => rfl⟩
        exact AcceptedGrammar.element tok rs rest hval e2 e3

/-- C9 (amended). For every text on which `FromHexString` succeeds, the text with its spaces
removed is a sequence of elements, each being exactly two hexadecimal digits or `??` followed
by any number of repeat blocks, each repeat block consisting of `[`, an optional `+`, one or
more decimal digits denoting an integer between 1 and `2^63 - 1`, and `]`. -/
theorem FromHexString_accepts_grammar (input : List Nat)
    (h : (FromHexString input).2 = none) : AcceptedGrammar (removeSpaces input) := by
  unfold FromHexString at h
  cases ht : tokenize input with
  | error e => simp [ht] at h
  | ok toks =>
    simp only [ht] at h
    rw [tokenize_eq_lex] at ht
    obtain ⟨h1, h2⟩ := lex_shape _ _ (le_refl _) 0 toks ht
    obtain ⟨rs, rest, e1, _, e3, e4⟩ :=
      buildLoop_grammar toks [] (buildLoop toks [] (-1)).1 (-1) h2 (le_refl _) (by rw [← h])
    rw [h1, e1, e4 rfl]
    simpa using e3

theorem DocGrammar_inv (s : List Nat) (h : DocGrammar s) :
    s = [] ∨ ∃ v tail, s = v ++ tail ∧ IsValueText v ∧
      (DocGrammar tail ∨ ∃ d rest, tail = 91 :: (d ++ 93 :: rest) ∧ d ≠ [] ∧
        (∀ c ∈ d, isDigit c = true) ∧ DocGrammar rest) := by
  cases h with
  | nil => exact Or.inl rfl
  | element v rest hv hr => exact Or.inr ⟨v, rest, rfl, hv, Or.inl hr⟩
  | elementRepeat v r rest hv hr hrest =>
    obtain ⟨d, hd, h1, h2, _⟩ := hr
    exact Or.inr ⟨v, r ++ rest, by simp, hv, Or.inr ⟨d, rest, by rw [hd]; simp, h1, h2, hrest⟩⟩

theorem IsValueText_split (v tail : List Nat) (a b : Nat) (t : List Nat)
    (hv : IsValueText v) (h : a :: b :: t = v ++ tail) :
    tail = t ∧ (a = 63 ∨ isHexDigit a = true) := by
  rcases hv with hv | ⟨x, y, hv, hx, _⟩
  · subst hv
    simp only [List.cons_append, List.nil_append, List.cons.injEq] at h
    exact ⟨h.2.2.symm, Or.inl h.1⟩
  · subst hv
    simp only [List.cons_append, List.nil_append, List.cons.injEq] at h
    exact ⟨h.2.2.symm, Or.inr (by rw [h.1]; exact hx)⟩

theorem DocGrammar_not_open (t : List Nat) : ¬ DocGrammar (91 :: t) := by
  intro h
  rcases DocGrammar_inv _ h with h0 | ⟨v, tail, h1, hv, _⟩
  · cases h0
  · cases t with
    | nil =>
      rcases hv with hv | ⟨x, y, hv, _, _⟩ <;> subst hv <;> simp at h1
    | cons b t =>
      obtain ⟨_, h2⟩ := IsValueText_split v tail 91 b t hv h1
      rcases h2 with h2 | h2
      · cases h2
      · revert h2; decide

theorem DocGrammar_value_inv (a b : Nat) (t : List Nat) (h : DocGrammar (a :: b :: t)) :
    DocGrammar t ∨ ∃ d rest, scanClose t.tail = some (d, rest) ∧ t.head? = some 91 ∧
      (∀ c ∈ d, isDigit c = true) ∧ DocGrammar rest := by
  rcases DocGrammar_inv _ h with h0 | ⟨v, tail, h1, hv, h2⟩
  · cases h0
  · obtain ⟨e, _⟩ := IsValueText_split v tail a b t hv h1
    subst e
    rcases h2 with h2 | ⟨d, rest, h3, _, h5, h6⟩
    · exact Or.inl h2
    · right
      refine ⟨d, rest, ?_, by rw [h3]; rfl, h5, h6⟩
      rw [h3]
      apply scanClose_append
      intro hc
      have := h5 93 hc
      revert this; decide

/-- C9 counterexample: `"AA[2][3]"` (two repeat blocks after one element) and `"AA[+3]"` (a
sign inside the repeat block) are accepted, both as the single element `AA` with repeat 3, and
do not conform to the documented grammar. -/
theorem FromHexString_accepts_outside_grammar :
    FromHexString (str "AA[2][3]") = ([⟨0xAA, 3⟩], none) ∧
    ¬ DocGrammar (removeSpaces (str "AA[2][3]")) ∧
    FromHexString (str "AA[+3]") = ([⟨0xAA, 3⟩], none) ∧
    ¬ DocGrammar (removeSpaces (str "AA[+3]")) := by
  refine ⟨by decide, ?_, by decide, ?_⟩
  · have e : removeSpaces (str "AA[2][3]") = [65, 65, 91, 50, 93, 91, 51, 93] := by decide
    rw [e]
    intro h
    rcases DocGrammar_value_inv _ _ _ h with h1 | ⟨d, rest, h1, _, _, h4⟩
    · exact DocGrammar_not_open _ h1
    · have e2 : scanClose ([91, 50, 93, 91, 51, 93] : List Nat).tail
          = some ([50], [91, 51, 93]) := by decide
      rw [e2] at h1
      simp only [Option.some.injEq, Prod.mk.injEq] at h1
      rw [← h1.2] at h4
      exact DocGrammar_not_open _ h4
  · have e : removeSpaces (str "AA[+3]") = [65, 65, 91, 43, 51, 93] := by decide
    rw [e]
    intro h
    rcases DocGrammar_value_inv _ _ _ h with h1 | ⟨d, rest, h1, _, h3, _⟩
    · exact DocGrammar_not_open _ h1
    · have e2 : scanClose ([91, 43, 51, 93] : List Nat).tail = some ([43, 51], []) := by decide
      rw [e2] at h1
      simp only [Option.some.injEq, Prod.mk.injEq] at h1
      have := h3 43 (by rw [← h1.1]; simp)
      revert this; decide

/-- C9 witness: the text of `TestFind`. -/
theorem FromHexString_accepts_grammar_witness :
    (FromHexString (str "01 02 ??[2] 05")).2 = none ∧
    AcceptedGrammar (removeSpaces (str "01 02 ??[2] 05")) :=
  ⟨by decide, FromHexString_accepts_grammar (str "01 02 ??[2] 05") (by decide)⟩

/-! ## Malformed repeat blocks are rejected -/

theorem consToks_error (ts : List (List Nat)) (e : ParseError) :
    consToks ts (Except.error e) = Except.error e := by
  induction ts with
  | nil => rfl
  | cons t ts ih =>
    simp only [consToks, List.foldr_cons] at ih ⊢
    rw [ih]
    rfl

theorem consToks_cons (t : List Nat) (ts : List (List Nat))
    (r : Except ParseError (List (List Nat))) :
    consToks (t :: ts) r = consTok t (consToks ts r) := rfl

/-- Tokenizing a text that starts with whole tokens: those tokens, then the tokens of the
rest. -/
theorem lex_append (n : Nat) (pre : List Nat) (hn : pre.length ≤ n) (i : Nat)
    (toks : List (List Nat)) (h : lex i pre = Except.ok toks) (rest : List Nat) :
    ∃ j, lex i (pre ++ rest) = consToks toks (lex j rest) := by
  induction n generalizing pre i toks with
  | zero =>
    have : pre = [] := List.length_eq_zero.1 (by omega)
    subst this
    rw [lex_nil] at h
    cases h
    exact ⟨i, rfl⟩
  | succ n ih =>
    cases pre with
    | nil =>
      rw [lex_nil] at h
      cases h
      exact ⟨i, rfl⟩
    | cons c cs =>
      simp only [List.length_cons] at hn
      rcases lex_cases i c cs with ⟨r, h1, h2, h3⟩ | ⟨_, _, h3⟩ | ⟨d, r, h1, h2, hd, h3⟩ |
        ⟨_, _, h3⟩ | ⟨c2, r, h1, hq, h2, h3⟩
      · rw [h3] at h
        obtain ⟨toks1, e1, e2⟩ := consTok_ok _ _ _ h
        obtain ⟨j, hj⟩ := ih r (by rw [h2] at hn; simp at hn; omega) _ _ e1
        refine ⟨j, ?_⟩
        subst h1 h2 e2
        simp only [List.cons_append]
        rw [lex_wild, hj, consToks_cons]
      · rw [h3] at h; cases h
      · rw [h3] at h
        obtain ⟨toks1, e1, e2⟩ := consTok_ok _ _ _ h
        obtain ⟨j, hj⟩ := ih r (by rw [h2] at hn; simp at hn; omega) _ _ e1
        refine ⟨j, ?_⟩
        subst h1 h2 e2
        have e : 91 :: (d ++ 93 :: r) ++ rest = 91 :: (d ++ 93 :: (r ++ rest)) := by simp
        rw [e, lex_rep _ _ _ _ (scanClose_append d (r ++ rest) hd), hj, consToks_cons]
      · rw [h3] at h; cases h
      · rw [h3] at h
        obtain ⟨toks1, e1, e2⟩ := consTok_ok _ _ _ h
        obtain ⟨j, hj⟩ := ih r (by rw [h2] at hn; simp at hn; omega) _ _ e1
        refine ⟨j, ?_⟩
        subst h2 e2
        simp only [List.cons_append]
        rw [lex_hex _ _ _ _ h1 hq, hj, consToks_cons]

theorem buildLoop_append_error (a b : List (List Nat)) (acc : List PatternEl) (idx : Int)
    (h : (buildLoop a acc idx).2 ≠ none) : (buildLoop (a ++ b) acc idx).2 ≠ none := by
  induction a generalizing acc idx with
  | nil => simp [buildLoop] at h
  | cons t a ih =>
    rw [List.cons_append, buildLoop_cons]
    rw [buildLoop_cons] at h
    cases hs : buildStep t acc idx with
    | error e => simp
    | ok st =>
      simp only [hs] at h ⊢
      exact ih _ _ h

theorem buildLoop_append_ok (a b : List (List Nat)) (acc out : List PatternEl)
    (h : buildLoop a acc ((acc.length : Int) - 1) = (out, none)) :
    buildLoop (a ++ b) acc ((acc.length : Int) - 1) =
      buildLoop b out ((out.length : Int) - 1) := by
  induction a generalizing acc with
  | nil =>
    simp only [buildLoop, Prod.mk.injEq, and_true] at h
    subst h
    rfl
  | cons t a ih =>
    rw [List.cons_append, buildLoop_cons]
    rw [buildLoop_cons] at h
    cases hs : buildStep t acc ((acc.length : Int) - 1) with
    | error e => simp [hs] at h
    | ok st =>
      obtain ⟨acc1, idx1⟩ := st
      simp only [hs] at h ⊢
      have hi := buildStep_lastIdx t acc acc1 idx1 hs
      subst hi
      exact ih acc1 h

theorem buildLoop_ne_outOfFuel (toks : List (List Nat)) (acc : List PatternEl) (idx : Int) :
    (buildLoop toks acc idx).2 ≠ some ParseError.outOfFuel := by
  induction toks generalizing acc idx with
  | nil => simp [buildLoop]
  | cons t toks ih =>
    rw [buildLoop_cons]
    cases hs : buildStep t acc idx with
    | ok st => exact ih _ _
    | error e =>
      simp only [ne_eq, Option.some.injEq]
      intro he
      subst he
      unfold buildStep at hs
      by_cases h1 : t.head? = some 91
      · rw [if_pos h1] at hs
        by_cases h2 : idx = -1
        · rw [if_pos h2] at hs
          cases hs
        · rw [if_neg h2] at hs
          cases hA : Atoi (t.drop 1).dropLast with
          | none => rw [hA] at hs; cases hs
          | some n =>
            rw [hA] at hs
            simp only at hs
            by_cases h3 : n < 1
            · rw [if_pos h3] at hs
              cases hs
            · rw [if_neg h3] at hs
              cases hs
      · rw [if_neg h1] at hs
        by_cases h2 : t = [63, 63]
        · rw [if_pos h2] at hs
          cases hs
        · rw [if_neg h2] at hs
          cases hP : ParseUint t with
          | none => rw [hP] at hs; cases hs
          | some b => rw [hP] at hs; cases hs

/-- The error of `FromHexString` is a Go error, never the exhaustion of the recursion bound. -/
theorem FromHexString_ne_outOfFuel (input : List Nat) :
    (FromHexString input).2 ≠ some ParseError.outOfFuel := by
  unfold FromHexString
  cases ht : tokenize input with
  | error e =>
    simp only [ne_eq, Option.some.injEq]
    intro he
    subst he
    exact tokenize_fuel input ht
  | ok toks => exact buildLoop_ne_outOfFuel _ _ _

theorem Atoi_some_inv (d : List Nat) (n : Int) (h : Atoi d = some n) :
    IsDecimalInt d ∧ n = intValue d := by
  have key : ∀ (neg : Bool) (ds : List Nat), splitSign d = (neg, ds) →
      ds ≠ [] ∧ (∀ c ∈ ds, isDigit c = true) ∧
        n = if neg then -(decValue ds : Int) else (decValue ds : Int) := by
    intro neg ds hs
    unfold Atoi at h
    simp only [hs] at h
    by_cases h1 : ds = []
    · rw [if_pos h1] at h; cases h
    · rw [if_neg h1] at h
      by_cases h2 : ¬ ds.all isDigit = true
      · rw [if_pos h2] at h; cases h
      · rw [if_neg h2] at h
        have hall : ∀ c ∈ ds, isDigit c = true := by
          simpa [List.all_eq_true] using h2
        cases neg with
        | true =>
          simp only [if_true] at h
          split_ifs at h
          simp only [Option.some.injEq] at h
          exact ⟨h1, hall, by simp [h]⟩
        | false =>
          simp only [Bool.false_eq_true, if_false] at h
          split_ifs at h
          simp only [Option.some.injEq] at h
          exact ⟨h1, hall, by simp [h]⟩
  cases d with
  | nil =>
    obtain ⟨h1, _⟩ := key false [] rfl
    exact absurd rfl h1
  | cons c rest =>
    by_cases hp : c = 43
    · have hs : splitSign (c :: rest) = (false, rest) := by simp [splitSign, hp]
      obtain ⟨h1, h2, h3⟩ := key _ _ hs
      refine ⟨⟨[43], rest, by simp [hp], Or.inr (Or.inl rfl), h1, h2⟩, ?_⟩
      rw [h3, hp]
      simp [intValue]
    · by_cases hm : c = 45
      · have hs : splitSign (c :: rest) = (true, rest) := by simp [splitSign, hm]
        obtain ⟨h1, h2, h3⟩ := key _ _ hs
        refine ⟨⟨[45], rest, by simp [hm], Or.inr (Or.inr rfl), h1, h2⟩, ?_⟩
        rw [h3, hm]
        simp [intValue]
      · have hs : splitSign (c :: rest) = (false, c :: rest) := by simp [splitSign, hp, hm]
        obtain ⟨h1, h2, h3⟩ := key _ _ hs
        refine ⟨⟨[], c :: rest, rfl, Or.inl rfl, h1, h2⟩, ?_⟩
        rw [h3]
        simp [intValue, hp, hm]

theorem FromHexString_of_tokenize_error (input : List Nat) (e : ParseError)
    (h : tokenize input = Except.error e) : (FromHexString input).2 = some e := by
  unfold FromHexString
  rw [h]

theorem FromHexString_of_tokenize_ok (input : List Nat) (toks : List (List Nat))
    (h : tokenize input = Except.ok toks) : FromHexString input = buildLoop toks [] (-1) := by
  unfold FromHexString
  rw [h]

theorem first_repeat_rejected (tok : List Nat) (toks : List (List Nat))
    (h : tok.head? = some 91) : (buildLoop (tok :: toks) [] (-1)).2 ≠ none := by
  rw [buildLoop_cons]
  unfold buildStep
  rw [if_pos h, if_pos rfl]
  simp

theorem repeat_rejected (toks toks1 : List (List Nat)) (d : List Nat)
    (hd : ¬ IsDecimalInt d ∨ intValue d < 1) :
    (buildLoop (toks ++ (91 :: d ++ [93]) :: toks1) [] (-1)).2 ≠ none := by
  cases hb : buildLoop toks [] (-1) with
  | mk out r =>
    cases r with
    | some e =>
      apply buildLoop_append_error
      rw [hb]
      simp
    | none =>
      have h0 : (-1 : Int) = (([] : List PatternEl).length : Int) - 1 := by simp
      rw [h0] at hb ⊢
      rw [buildLoop_append_ok _ _ _ _ hb, buildLoop_cons]
      cases hs : buildStep (91 :: d ++ [93]) out ((out.length : Int) - 1) with
      | error e => simp
      | ok st =>
        exfalso
        obtain ⟨acc1, idx1⟩ := st
        rcases buildStep_ok_cases _ _ _ _ _ hs with ⟨_, _, _, n, h4, h5, _⟩ | ⟨h1, _⟩
        · rw [repeat_interior] at h4
          obtain ⟨k1, k2⟩ := Atoi_some_inv d n h4
          rcases hd with hd | hd
          · exact hd k1
          · omega
        · simp at h1

theorem consTok_error_iff (tok : List Nat) (r : Except ParseError (List (List Nat))) :
    (∃ e, consTok tok r = Except.error e) ∨
      ∃ toks, r = Except.ok toks ∧ consTok tok r = Except.ok (tok :: toks) := by
  cases r with
  | error e => exact Or.inl ⟨e, rfl⟩
  | ok toks => exact Or.inr ⟨toks, rfl, rfl⟩

/-- C10. `FromHexString` returns an error for every input in which a repeat block is malformed:
the space-stripped input begins with a repeat block (no preceding element), or a `[` that
starts a token has no `]` after it, or the text between such a `[` and the next `]` is not a
base-10 integer, or that integer is less than 1. -/
theorem FromHexString_rejects_malformed_repeat (input : List Nat)
    (h : MalformedRepeat (removeSpaces input)) :
    ∃ e, (FromHexString input).2 = some e ∧ e ≠ ParseError.outOfFuel := by
  have hne : (FromHexString input).2 ≠ none := by
    have hlex := tokenize_eq_lex input
    rcases h with ⟨rest, h1⟩ | ⟨pre, rest, h1, ⟨toks, hb⟩, h3⟩ | ⟨pre, d, rest, h1, ⟨toks, hb⟩, h3, h4⟩
    · rw [h1] at hlex
      rcases lex_cases 0 91 rest with ⟨_, k1, _⟩ | ⟨_, _, k3⟩ | ⟨d, r, _, _, _, k3⟩ |
        ⟨k1, _⟩ | ⟨_, _, k1, _⟩
      · cases k1
      · rw [k3] at hlex
        rw [FromHexString_of_tokenize_error _ _ hlex]
        simp
      · rw [k3] at hlex
        rcases consTok_error_iff (91 :: d ++ [93]) (lex (0 + d.length + 2) r) with
          ⟨e, he⟩ | ⟨toks1, _, he⟩
        · rw [he] at hlex
          rw [FromHexString_of_tokenize_error _ _ hlex]
          simp
        · rw [he] at hlex
          rw [FromHexString_of_tokenize_ok _ _ hlex]
          exact first_repeat_rejected _ _ (by simp)
      · exact absurd rfl k1
      · exact absurd rfl k1
    · obtain ⟨j, hj⟩ := lex_append _ pre (le_refl _) 0 toks hb (91 :: rest)
      rw [h1, hj, lex_rep_none _ _ ((scanClose_none rest).2 h3), consToks_error] at hlex
      rw [FromHexString_of_tokenize_error _ _ hlex]
      simp
    · obtain ⟨j, hj⟩ := lex_append _ pre (le_refl _) 0 toks hb (91 :: (d ++ 93 :: rest))
      rw [h1, hj, lex_rep _ _ _ _ (scanClose_append d rest h3)] at hlex
      rcases consTok_error_iff (91 :: d ++ [93]) (lex (j + d.length + 2) rest) with
        ⟨e, he⟩ | ⟨toks1, _, he⟩
      · rw [he, consToks_error] at hlex
        rw [FromHexString_of_tokenize_error _ _ hlex]
        simp
      · rw [he, consToks_ok] at hlex
        rw [FromHexString_of_tokenize_ok _ _ hlex]
        exact repeat_rejected toks toks1 d h4
  cases hr : (FromHexString input).2 with
  | none => exact absurd hr hne
  | some e =>
    refine ⟨e, rfl, ?_⟩
    intro he
    subst he
    exact FromHexString_ne_outOfFuel input hr

/-- C10 witness: `"AA BB[2"`, whose `[` starts a token and has no `]` after it. -/
theorem FromHexString_rejects_malformed_repeat_witness :
    MalformedRepeat (removeSpaces (str "AA BB[2")) ∧
    ∃ e, (FromHexString (str "AA BB[2")).2 = some e ∧ e ≠ ParseError.outOfFuel :=
  ⟨Or.inr (Or.inl ⟨[65, 65, 66, 66], [50], by decide, ⟨[[65, 65], [66, 66]], rfl⟩,
      by decide⟩),
    FromHexString_rejects_malformed_repeat (str "AA BB[2")
      (Or.inr (Or.inl ⟨[65, 65, 66, 66], [50], by decide, ⟨[[65, 65], [66, 66]], rfl⟩,
        by decide⟩))⟩

/-! ## Length, spaces, arguments, wide text -/

/-- C17. For every pattern `Length` is the sum of the repeat counts of its elements, and it is
0 for the empty pattern. -/
theorem Length_additive (p : Pattern) :
    p.Length = (p.elements.map PatternEl.times).sum ∧ (⟨[]⟩ : Pattern).Length = 0 :=
  ⟨Length_eq_sum p, rfl⟩

/-- C14. Two texts that are equal once their spaces are deleted get the same outcome from
`FromHexString`: the same elements and the same error, so both fail or both succeed with equal
element sequences. -/
theorem FromHexString_spaces_insignificant (a b : List Nat)
    (h : removeSpaces a = removeSpaces b) :
    FromHexString a = FromHexString b ∧
    ((FromHexString a).2 = none ↔ (FromHexString b).2 = none) ∧
    ((FromHexString a).2 = none → (FromHexString a).1 = (FromHexString b).1) := by
  have e : FromHexString a = FromHexString b := by
    unfold FromHexString tokenize
    rw [h]
  exact ⟨e, by rw [e], fun _ => by rw [e]⟩

/-- C14 witness: `"AA ??[2] BB"` and the same text with spaces inside the tokens. -/
theorem FromHexString_spaces_insignificant_witness :
    removeSpaces (str "AA ??[2] BB") = removeSpaces (str " A A? ?[ 2 ]BB ") ∧
    (FromHexString (str "AA ??[2] BB") = FromHexString (str " A A? ?[ 2 ]BB ") ∧
    ((FromHexString (str "AA ??[2] BB")).2 = none ↔
      (FromHexString (str " A A? ?[ 2 ]BB ")).2 = none) ∧
    ((FromHexString (str "AA ??[2] BB")).2 = none →
      (FromHexString (str "AA ??[2] BB")).1 = (FromHexString (str " A A? ?[ 2 ]BB ")).1)) :=
  ⟨by decide, FromHexString_spaces_insignificant _ _ (by decide)⟩

theorem Join_nil_sep (args : List (List Nat)) : Join args [] = args.flatten := by
  induction args with
  | nil => rfl
  | cons a rest ih =>
    cases rest with
    | nil => simp [Join]
    | cons b rest =>
      simp only [Join, List.append_nil, List.flatten_cons] at ih ⊢
      rw [ih]

theorem removeSpaces_append (x y : List Nat) :
    removeSpaces (x ++ y) = removeSpaces x ++ removeSpaces y := by
  simp [removeSpaces]

theorem removeSpaces_Join (args : List (List Nat)) :
    removeSpaces (Join args [32]) = removeSpaces args.flatten := by
  induction args with
  | nil => rfl
  | cons a rest ih =>
    cases rest with
    | nil => simp [Join]
    | cons b rest =>
      simp only [Join, List.flatten_cons, removeSpaces_append] at ih ⊢
      rw [ih]
      simp [removeSpaces]

/-- C15. `FromArgs` gives the outcome of `FromHexString` on the arguments concatenated with no
separator (`strings.Join(args, "")`), and so also the outcome of `FromHexString` on the
arguments joined by single spaces. -/
theorem FromArgs_eq_FromHexString (args : List (List Nat)) :
    FromArgs args = FromHexString (Join args []) ∧
    FromArgs args = FromHexString (Join args [32]) := by
  have e1 : FromArgs args = FromHexString (Join args []) := by
    rw [Join_nil_sep]; rfl
  refine ⟨e1, ?_⟩
  rw [e1]
  unfold FromHexString tokenize
  rw [removeSpaces_Join, Join_nil_sep]

/-- C16. `FromWideString(s)` is the element sequence of `FromAnsiString(s)` with one element of
value 0 and repeat 1 inserted after each element: two elements per character, twice the
`Length`, and no wildcard. -/
theorem FromWideString_elements (s : List Nat) :
    FromWideString s = (FromAnsiString s).flatMap (fun el => [el, ⟨0, 1⟩]) ∧
    (FromWideString s).length = 2 * s.length ∧
    (∀ i, (FromWideString s)[2 * i]? = (FromAnsiString s)[i]?) ∧
    (∀ i, i < s.length → (FromWideString s)[2 * i + 1]? = some ⟨0, 1⟩) ∧
    (⟨FromWideString s⟩ : Pattern).Length = 2 * (⟨FromAnsiString s⟩ : Pattern).Length ∧
    (∀ el ∈ FromWideString s, el.value ≠ -1) := by
  refine ⟨?_, ?_, ?_, ?_, ?_, ?_⟩
  · induction s with
    | nil => rfl
    | cons c cs ih =>
      simp only [FromAnsiString] at ih
      simp [FromWideString, FromAnsiString, ih]
  · induction s with
    | nil => rfl
    | cons c cs ih => simp [FromWideString, ih]; omega
  · induction s with
    | nil => intro i; simp [FromWideString, FromAnsiString]
    | cons c cs ih =>
      intro i
      cases i with
      | zero => simp [FromWideString, FromAnsiString]
      | succ i =>
        have e : 2 * (i + 1) = 2 * i + 1 + 1 := by omega
        have := ih i
        simp only [FromAnsiString] at this
        simp [FromWideString, FromAnsiString, e, this]
  · induction s with
    | nil => intro i hi; simp at hi
    | cons c cs ih =>
      intro i hi
      cases i with
      | zero => simp [FromWideString]
      | succ i =>
        have e : 2 * (i + 1) + 1 = 2 * i + 1 + 1 + 1 := by omega
        simp only [List.length_cons] at hi
        simp [FromWideString, e, ih i (by omega)]
  · rw [Length_eq_sum, Length_eq_sum]
    induction s with
    | nil => rfl
    | cons c cs ih =>
      simp only [FromWideString, FromAnsiString, List.map_cons, List.sum_cons] at ih ⊢
      rw [ih]
      ring
  · induction s with
    | nil => simp [FromWideString]
    | cons c cs ih =>
      intro el hel
      simp only [FromWideString, List.mem_cons] at hel
      rcases hel with hel | hel | hel
      · rw [hel]; simp only [ne_eq]; omega
      · rw [hel]; simp
      · exact ih el hel

/-! ## Find: safety, patched buffers, raw bytes -/

/-- The result of `Find` for a pattern without negative repeat counts. -/
theorem Find_spec (p : Pattern) (buffer : List Nat) (h : ∀ el ∈ p.elements, 0 ≤ el.times) :
    ∃ r : Int, p.Find buffer = some r ∧
      (r = -1 ↔ (p.Length = 0 ∨
        ¬ ∃ i : Nat, (i : Int) + p.Length ≤ buffer.length ∧ MatchesAt p buffer i)) ∧
      (r ≠ -1 → ∃ i : Nat, r = (i : Int) ∧ (i : Int) + p.Length ≤ buffer.length ∧
        MatchesAt p buffer i ∧ ∀ i1 : Nat, i1 < i → ¬ MatchesAt p buffer i1) := by
  have hlen : ((expand p).length : Int) = p.Length := expand_length p h
  unfold Pattern.Find
  simp only
  by_cases h0 : p.Length = 0 ∨ (buffer.length : Int) < p.Length
  · rw [if_pos h0]
    refine ⟨-1, rfl, ⟨fun _ => ?_, fun _ => rfl⟩, fun hne => absurd rfl hne⟩
    rcases h0 with h0 | h0
    · exact Or.inl h0
    · right
      rintro ⟨i, hi, _⟩
      omega
  · rw [if_neg h0]
    push_neg at h0
    obtain ⟨hz, hle⟩ := h0
    obtain ⟨r, hr1, hr2⟩ := findLoop_spec p buffer
      ((buffer.length : Int) - p.Length + 1).toNat 0 (by omega)
    refine ⟨r, hr1, ?_⟩
    rcases hr2 with ⟨h1, h2⟩ | ⟨i1, h1, h2, h3, h4, h5⟩
    · refine ⟨⟨fun _ => ?_, fun _ => h1⟩, fun hne => absurd h1 hne⟩
      right
      rintro ⟨i, hi, hm⟩
      exact h2 i (Nat.zero_le _) (by omega) hm
    · have hr : r ≠ -1 := by omega
      refine ⟨⟨fun hh => absurd hh hr, fun hh => ?_⟩,
        fun _ => ⟨i1, h1, by omega, h4, fun i2 hi2 => h5 i2 (Nat.zero_le _) hi2⟩⟩
      rcases hh with hh | hh
      · exact absurd hh hz
      · exact absurd ⟨i1, by omega, h4⟩ hh

/-- C18. For a pattern whose elements all have repeat at least 1 and every buffer, `Find` does
not end in an index-out-of-range panic (no read outside `0..len(buffer)-1`), and its result is
`-1` or an offset `i` with `0 ≤ i` and `i + Length ≤ len(buffer)`. -/
theorem Find_in_bounds (p : Pattern) (buffer : List Nat)
    (h : ∀ el ∈ p.elements, 1 ≤ el.times) :
    p.Find buffer ≠ none ∧
    ∀ r, p.Find buffer = some r →
      r = -1 ∨ (0 ≤ r ∧ r + p.Length ≤ (buffer.length : Int)) := by
  obtain ⟨r, hr, _, h2⟩ := Find_spec p buffer (fun el he => le_trans (by decide) (h el he))
  refine ⟨by rw [hr]; simp, ?_⟩
  intro r1 hr1
  rw [hr] at hr1
  simp only [Option.some.injEq] at hr1
  subst hr1
  by_cases hm : r = -1
  · exact Or.inl hm
  · obtain ⟨i, hi, hfit, _⟩ := h2 hm
    right
    rw [hi]
    exact ⟨by omega, hfit⟩

/-- C18 witness: the pattern and buffer of `TestFind`. -/
theorem Find_in_bounds_witness :
    (∀ el ∈ findTestPattern.elements, 1 ≤ el.times) ∧
    (findTestPattern.Find [0, 1, 2, 3, 4, 5, 6] ≠ none ∧
    ∀ r, findTestPattern.Find [0, 1, 2, 3, 4, 5, 6] = some r →
      r = -1 ∨ (0 ≤ r ∧ r + findTestPattern.Length ≤
        ((([0, 1, 2, 3, 4, 5, 6] : List Nat).length : Nat) : Int))) :=
  ⟨by decide, Find_in_bounds findTestPattern [0, 1, 2, 3, 4, 5, 6] (by decide)⟩

theorem mem_expandEls (els : List PatternEl) (v : Int) (h : v ∈ expandEls els) :
    ∃ el ∈ els, v = el.value := by
  induction els with
  | nil => simp [expandEls] at h
  | cons el rest ih =>
    simp only [expandEls, List.mem_append, List.mem_replicate] at h
    rcases h with ⟨_, h⟩ | h
    · exact ⟨el, List.mem_cons_self _ _, h⟩
    · obtain ⟨e, he, hv⟩ := ih h
      exact ⟨e, List.mem_cons_of_mem _ he, hv⟩

/-- C19. For a pattern of `Length ≥ 1` whose values are the wildcard or a byte and whose
repeat counts are at least 1, and a buffer and offset with `0 ≤ offset` and
`offset + Length ≤ len(buffer)`: `Patch` completes, the pattern matches the patched buffer at
the offset, and `Find` on the patched buffer returns an offset `r` with `0 ≤ r ≤ offset`. -/
theorem Find_after_Patch (p : Pattern) (buffer : List Nat) (offset : Int)
    (hlen : 1 ≤ p.Length)
    (hval : ∀ el ∈ p.elements, el.value = -1 ∨ (0 ≤ el.value ∧ el.value ≤ 255))
    (hrep : ∀ el ∈ p.elements, 1 ≤ el.times) (h0 : 0 ≤ offset)
    (hfit : offset + p.Length ≤ (buffer.length : Int)) :
    ∃ out, p.Patch buffer offset = some out ∧ MatchesAt p out offset.toNat ∧
      ∃ r, p.Find out = some r ∧ 0 ≤ r ∧ r ≤ offset := by
  have hnn : ∀ el ∈ p.elements, 0 ≤ el.times := fun el he => le_trans (by decide) (hrep el he)
  have hL : ((expand p).length : Int) = p.Length := expand_length p hnn
  have hin : ∀ j : Nat, j < (expand p).length → 0 ≤ offset + j ∧ offset + j < buffer.length :=
    fun j hj => ⟨by omega, by omega⟩
  have hlt : ∀ (j : Nat) (v : Int), (expand p)[j]? = some v → j < (expand p).length := by
    intro j v hj
    by_contra hc
    rw [List.getElem?_eq_none (by omega)] at hj
    simp at hj
  cases hr : patchFlat (expand p) buffer offset with
  | none =>
    exfalso
    obtain ⟨j, v, h1, _, h3⟩ := (patchFlat_none_iff _ _ _).1 hr
    exact h3 (hin j (hlt j v h1))
  | some out =>
    have hol : out.length = buffer.length := patchFlat_length _ _ _ _ hr
    have hm : MatchesAt p out offset.toNat := by
      intro j v hj
      have hjl := hlt j v hj
      have hidx : (offset + j).toNat = offset.toNat + j := by omega
      by_cases hw : v = -1
      · have hb : offset.toNat + j < out.length := by omega
        exact ⟨out[offset.toNat + j], List.getElem?_eq_getElem hb, Or.inl hw⟩
      · have hwr := patchFlat_written _ _ _ _ hr j v hj hw
        rw [hidx] at hwr
        refine ⟨toByte v, hwr, Or.inr ?_⟩
        obtain ⟨el, hel, hv⟩ := mem_expandEls p.elements v (List.getElem?_mem hj)
        rcases hval el hel with hv1 | ⟨hv1, hv2⟩
        · exact absurd (hv.trans hv1) hw
        · rw [← hv] at hv1 hv2
          unfold toByte
          rw [Int.emod_eq_of_lt hv1 (by omega), Int.toNat_of_nonneg hv1]
    refine ⟨out, by rw [Patch_eq_patchFlat, hr], hm, ?_⟩
    obtain ⟨r, hr1, hr2, hr3⟩ := Find_spec p out hnn
    refine ⟨r, hr1, ?_⟩
    by_cases hneg : r = -1
    · exfalso
      rcases hr2.1 hneg with hz | hno
      · omega
      · exact hno ⟨offset.toNat, by omega, hm⟩
    · obtain ⟨i, hi, _, _, hmin⟩ := hr3 hneg
      refine ⟨by omega, ?_⟩
      by_contra hc
      exact hmin offset.toNat (by omega) hm

/-- C19 witness: the pattern of `TestPatch` patched into a six-byte buffer at offset 1. -/
theorem Find_after_Patch_witness :
    (1 ≤ patchTestPattern.Length) ∧
    (∀ el ∈ patchTestPattern.elements, el.value = -1 ∨ (0 ≤ el.value ∧ el.value ≤ 255)) ∧
    (∀ el ∈ patchTestPattern.elements, 1 ≤ el.times) ∧
    patchTestPattern.Patch [1, 2, 3, 4, 5, 6] 1 = some [1, 0xAA, 3, 4, 0xBB, 6] ∧
    patchTestPattern.Find [1, 0xAA, 3, 4, 0xBB, 6] = some 1 ∧
    ∃ out, patchTestPattern.Patch [1, 2, 3, 4, 5, 6] 1 = some out ∧
      MatchesAt patchTestPattern out (1 : Int).toNat ∧
      ∃ r, patchTestPattern.Find out = some r ∧ 0 ≤ r ∧ r ≤ 1 :=
  ⟨by decide, by decide, by decide, by decide, by decide,
    Find_after_Patch patchTestPattern [1, 2, 3, 4, 5, 6] 1 (by decide) (by decide) (by decide)
      (by decide) (by decide)⟩

theorem expandEls_FromBytes (b : List Nat) :
    expandEls (FromBytes b) = b.map (fun (x : Nat) => (x : Int)) := by
  induction b with
  | nil => rfl
  | cons x xs ih =>
    simp only [FromBytes, List.map_cons, expandEls] at ih ⊢
    rw [ih]
    rfl

theorem MatchesAt_FromBytes (b buffer : List Nat) (i : Nat) :
    MatchesAt ⟨FromBytes b⟩ buffer i ↔ OccursAt b buffer i := by
  unfold MatchesAt OccursAt expand
  simp only [expandEls_FromBytes, List.getElem?_map]
  constructor
  · intro h
    apply List.ext_getElem?
    intro n
    by_cases hn : n < b.length
    · rw [List.getElem?_take_of_lt hn, List.getElem?_drop]
      have hb : b[n]? = some b[n] := List.getElem?_eq_getElem hn
      obtain ⟨x, hx1, hx2⟩ := h n (b[n] : Int) (by rw [hb]; rfl)
      rw [hx1, hb]
      rcases hx2 with hx2 | hx2
      · omega
      · congr 1
        omega
    · rw [List.getElem?_take_eq_none (by omega), List.getElem?_eq_none (by omega)]
  · intro h j v hj
    cases hb : b[j]? with
    | none => rw [hb] at hj; simp at hj
    | some y =>
      rw [hb] at hj
      simp only [Option.map_some', Option.some.injEq] at hj
      have hjl : j < b.length := by
        by_contra hc
        rw [List.getElem?_eq_none (by omega)] at hb
        simp at hb
      refine ⟨y, ?_, Or.inr hj.symm⟩
      have e := List.getElem?_take_of_lt (l := buffer.drop i) hjl
      rw [h, List.getElem?_drop] at e
      rw [← e, hb]

theorem OccursAt_fits (b buffer : List Nat) (i : Nat) (hb : b ≠ [])
    (h : OccursAt b buffer i) : i + b.length ≤ buffer.length := by
  unfold OccursAt at h
  have := congrArg List.length h
  have hpos : b.length ≠ 0 := fun hz => hb (List.length_eq_zero.1 hz)
  simp only [List.length_take, List.length_drop] at this
  omega

/-- C20. `FromBytes(b)` yields `len(b)` elements, the `i`-th with value `b[i]` and repeat 1
and none a wildcard; for non-empty `b`, `Find` returns the index of the first occurrence of `b`
as a contiguous sub-sequence of the buffer, or `-1` when `b` does not occur, and for empty `b`
it returns `-1`. -/
theorem FromBytes_Find (b buffer : List Nat) :
    (FromBytes b).length = b.length ∧
    (∀ (i x : Nat), b[i]? = some x → (FromBytes b)[i]? = some ⟨(x : Int), 1⟩) ∧
    (∀ el ∈ FromBytes b, el.value ≠ -1) ∧
    ∃ r : Int, (⟨FromBytes b⟩ : Pattern).Find buffer = some r ∧
      (b = [] → r = -1) ∧
      (b ≠ [] → (r = -1 ↔ ¬ ∃ i, OccursAt b buffer i)) ∧
      (r ≠ -1 → ∃ i : Nat, r = (i : Int) ∧ OccursAt b buffer i ∧
        ∀ i1 : Nat, i1 < i → ¬ OccursAt b buffer i1) := by
  have hL : (⟨FromBytes b⟩ : Pattern).Length = (b.length : Int) := by
    rw [Length_eq_sum]
    induction b with
    | nil => rfl
    | cons x xs ih =>
      simp only [FromBytes, List.map_cons, List.sum_cons, List.length_cons] at ih ⊢
      rw [ih]
      push_cast
      ring
  refine ⟨by simp [FromBytes], ?_, ?_, ?_⟩
  · intro i x hx
    simp [FromBytes, hx]
  · intro el hel
    simp only [FromBytes, List.mem_map] at hel
    obtain ⟨x, _, rfl⟩ := hel
    simp only [ne_eq]
    omega
  · obtain ⟨r, hr1, hr2, hr3⟩ := Find_spec ⟨FromBytes b⟩ buffer (by
      intro el hel
      simp only [FromBytes, List.mem_map] at hel
      obtain ⟨x, _, rfl⟩ := hel
      simp)
    refine ⟨r, hr1, ?_, ?_, ?_⟩
    · intro hb
      apply hr2.2
      left
      rw [hL, hb]
      rfl
    · intro hb
      have hne : (⟨FromBytes b⟩ : Pattern).Length ≠ 0 := by
        rw [hL]
        have : b.length ≠ 0 := fun hz => hb (List.length_eq_zero.1 hz)
        omega
      constructor
      · intro hneg
        rcases hr2.1 hneg with hz | hno
        · exact absurd hz hne
        · rintro ⟨i, hi⟩
          apply hno
          refine ⟨i, ?_, (MatchesAt_FromBytes b buffer i).2 hi⟩
          have := OccursAt_fits b buffer i hb hi
          rw [hL]
          omega
      · intro hno
        apply hr2.2
        right
        rintro ⟨i, _, hi⟩
        exact hno ⟨i, (MatchesAt_FromBytes b buffer i).1 hi⟩
    · intro hneg
      obtain ⟨i, hi1, _, hi3, hi4⟩ := hr3 hneg
      exact ⟨i, hi1, (MatchesAt_FromBytes b buffer i).1 hi3,
        fun i1 h1 hocc => hi4 i1 h1 ((MatchesAt_FromBytes b buffer i1).2 hocc)⟩

/-! ## Patch is idempotent -/

theorem patchFlatState_cons (v : Int) (buffer : List Nat) (idx : Int) :
    (v ≠ -1 ∧ (0 ≤ idx ∧ idx < (buffer.length : Int)) ∧
      ∀ ws, patchFlatState (v :: ws) buffer idx =
        patchFlatState ws (buffer.set idx.toNat (toByte v)) (idx + 1)) ∨
    (v ≠ -1 ∧ ¬ (0 ≤ idx ∧ idx < (buffer.length : Int)) ∧
      ∀ ws, patchFlatState (v :: ws) buffer idx = (buffer, true)) ∨
    (v = -1 ∧ ∀ ws, patchFlatState (v :: ws) buffer idx = patchFlatState ws buffer (idx + 1)) := by
  by_cases h1 : v ≠ -1
  · by_cases h2 : 0 ≤ idx ∧ idx < (buffer.length : Int)
    · exact Or.inl ⟨h1, h2, fun ws => by rw [patchFlatState, if_pos h1, if_pos h2]⟩
    · exact Or.inr (Or.inl ⟨h1, h2, fun ws => by rw [patchFlatState, if_pos h1, if_neg h2]⟩)
  · exact Or.inr (Or.inr ⟨not_not.1 h1, fun ws => by rw [patchFlatState, if_neg h1]⟩)

theorem patchFlatState_append (a b : List Int) (buffer : List Nat) (idx : Int) :
    patchFlatState (a ++ b) buffer idx =
      if (patchFlatState a buffer idx).2 = true then patchFlatState a buffer idx
      else patchFlatState b (patchFlatState a buffer idx).1 (idx + a.length) := by
  induction a generalizing buffer idx with
  | nil => simp [patchFlatState]
  | cons v vs ih =>
    have e : idx + 1 + (vs.length : Int) = idx + (((v :: vs).length : Nat) : Int) := by
      simp only [List.length_cons]; push_cast; ring
    rw [List.cons_append]
    rcases patchFlatState_cons v buffer idx with ⟨_, _, h⟩ | ⟨_, _, h⟩ | ⟨_, h⟩
    · rw [h, h, ih, e]
    · rw [h, h]; simp
    · rw [h, h, ih, e]

theorem patchElState_eq (value : Int) (n : Nat) (buffer : List Nat) (idx : Int) :
    patchElState value n buffer idx =
      ((patchFlatState (List.replicate n value) buffer idx).1,
        if (patchFlatState (List.replicate n value) buffer idx).2 = true then none
        else some (idx + n)) := by
  induction n generalizing buffer idx with
  | zero => simp [patchElState, patchFlatState]
  | succ n ih =>
    have e : idx + 1 + (n : Int) = idx + ((n + 1 : Nat) : Int) := by push_cast; ring
    rw [List.replicate_succ, patchElState]
    rcases patchFlatState_cons value buffer idx with
      ⟨h1, h2, h⟩ | ⟨h1, h2, h⟩ | ⟨h1, h⟩
    · rw [if_pos h1, if_pos h2, h, ih, e]
    · rw [if_pos h1, if_neg h2, h]; simp
    · rw [if_neg (not_not.2 h1), h, ih, e]

theorem patchElsState_eq (els : List PatternEl) (buffer : List Nat) (idx : Int) :
    patchElsState els buffer idx =
      ((patchFlatState (expandEls els) buffer idx).1,
        if (patchFlatState (expandEls els) buffer idx).2 = true then none
        else some (idx + ((expandEls els).length : Int))) := by
  induction els generalizing buffer idx with
  | nil => simp [patchElsState, expandEls, patchFlatState]
  | cons el rest ih =>
    simp only [patchElsState, expandEls, patchElState_eq, patchFlatState_append,
      List.length_append, List.length_replicate]
    by_cases hp : (patchFlatState (List.replicate el.times.toNat el.value) buffer idx).2 = true
    · simp [hp]
    · simp only [hp, if_false, Bool.false_eq_true]
      rw [ih]
      push_cast
      rw [add_assoc]

theorem PatchState_eq (p : Pattern) (buffer : List Nat) (offset : Int) :
    p.PatchState buffer offset = patchFlatState (expand p) buffer offset := by
  unfold Pattern.PatchState expand
  rw [patchElsState_eq]
  by_cases hp : (patchFlatState (expandEls p.elements) buffer offset).2 = true
  · simp only [hp, if_true, Option.isNone_none]
    rw [← hp]
  · simp only [hp, if_false, Bool.false_eq_true, Option.isNone_some]
    simp only [Bool.not_eq_true] at hp
    rw [← hp]

/-- The two embeddings of `Patch` agree: the call returns exactly when the state version does
not panic, with the same buffer. -/
theorem patchFlat_eq_state (vs : List Int) (buffer : List Nat) (idx : Int) :
    patchFlat vs buffer idx =
      if (patchFlatState vs buffer idx).2 = true then none
      else some (patchFlatState vs buffer idx).1 := by
  induction vs generalizing buffer idx with
  | nil => simp [patchFlat, patchFlatState]
  | cons v vs ih =>
    rw [patchFlat]
    rcases patchFlatState_cons v buffer idx with ⟨h1, h2, h⟩ | ⟨h1, h2, h⟩ | ⟨h1, h⟩
    · rw [if_pos h1, if_pos h2, h, ih]
    · rw [if_pos h1, if_neg h2, h]; simp
    · rw [if_neg (not_not.2 h1), h, ih]

theorem patchFlatState_length (vs : List Int) (buffer : List Nat) (idx : Int) :
    (patchFlatState vs buffer idx).1.length = buffer.length := by
  induction vs generalizing buffer idx with
  | nil => rfl
  | cons v vs ih =>
    simp only [patchFlatState]
    split_ifs with h1 h2
    · rw [ih, List.length_set]
    · rfl
    · exact ih _ _

theorem patchFlatState_below (vs : List Int) (buffer : List Nat) (idx : Int) (k : Nat)
    (hk : (k : Int) < idx) : (patchFlatState vs buffer idx).1[k]? = buffer[k]? := by
  induction vs generalizing buffer idx with
  | nil => rfl
  | cons v vs ih =>
    simp only [patchFlatState]
    split_ifs with h1 h2
    · rw [ih _ _ (by omega)]
      apply List.getElem?_set_ne
      omega
    · rfl
    · exact ih _ _ (by omega)

theorem set_eq_self (l : List Nat) (i x : Nat) (h : l[i]? = some x) : l.set i x = l := by
  apply List.ext_getElem?
  intro n
  by_cases hn : i = n
  · subst hn
    have hlt : i < l.length := by
      by_contra hc
      rw [List.getElem?_eq_none (by omega)] at h
      simp at h
    rw [List.getElem?_set_self hlt, h]
  · rw [List.getElem?_set_ne hn]

theorem patchFlatState_idem (vs : List Int) (buffer : List Nat) (idx : Int) :
    patchFlatState vs (patchFlatState vs buffer idx).1 idx = patchFlatState vs buffer idx := by
  induction vs generalizing buffer idx with
  | nil => rfl
  | cons v vs ih =>
    by_cases h1 : v ≠ -1
    · by_cases h2 : 0 ≤ idx ∧ idx < (buffer.length : Int)
      · have e : patchFlatState (v :: vs) buffer idx =
            patchFlatState vs (buffer.set idx.toNat (toByte v)) (idx + 1) := by
          rw [patchFlatState, if_pos h1, if_pos h2]
        rw [e]
        have hl := patchFlatState_length vs (buffer.set idx.toNat (toByte v)) (idx + 1)
        rw [List.length_set] at hl
        have hb := patchFlatState_below vs (buffer.set idx.toNat (toByte v)) (idx + 1)
          idx.toNat (by omega)
        rw [List.getElem?_set_self (by omega)] at hb
        rw [patchFlatState, if_pos h1, if_pos (by rw [hl]; exact h2), set_eq_self _ _ _ hb]
        exact ih _ _
      · have e : patchFlatState (v :: vs) buffer idx = (buffer, true) := by
          rw [patchFlatState, if_pos h1, if_neg h2]
        rw [e]
        exact e
    · have e : ∀ B, patchFlatState (v :: vs) B idx = patchFlatState vs B (idx + 1) := by
        intro B
        rw [patchFlatState, if_neg h1]
      rw [e, e]
      exact ih _ _

/-- C12. For every pattern, buffer and offset (in particular with `0 ≤ offset` and
`offset + Length ≤ len(buffer)`), patching the buffer and then patching the result again at
the same offset leaves a buffer identical to the one after the first patch, with the same
outcome; when the first `Patch` returns, so does the second, with the same buffer. -/
theorem Patch_idempotent (p : Pattern) (buffer : List Nat) (offset : Int) :
    p.PatchState (p.PatchState buffer offset).1 offset = p.PatchState buffer offset ∧
    (∀ out, p.Patch buffer offset = some out →
      p.PatchState buffer offset = (out, false) ∧ p.Patch out offset = some out) ∧
    ((∀ el ∈ p.elements, 0 ≤ el.times) → 0 ≤ offset →
      offset + p.Length ≤ (buffer.length : Int) →
      ∃ out, p.Patch buffer offset = some out ∧ p.Patch out offset = some out) := by
  have hidem := patchFlatState_idem (expand p) buffer offset
  have key : ∀ out, p.Patch buffer offset = some out →
      p.PatchState buffer offset = (out, false) ∧ p.Patch out offset = some out := by
    intro out hout
    rw [Patch_eq_patchFlat, patchFlat_eq_state] at hout
    by_cases hp : (patchFlatState (expand p) buffer offset).2 = true
    · rw [if_pos hp] at hout
      cases hout
    · rw [if_neg hp] at hout
      simp only [Option.some.injEq] at hout
      simp only [Bool.not_eq_true] at hp
      have hst : patchFlatState (expand p) buffer offset = (out, false) := by
        rw [← hout, ← hp]
      refine ⟨by rw [PatchState_eq, hst], ?_⟩
      rw [hst] at hidem
      rw [Patch_eq_patchFlat, patchFlat_eq_state, hidem]
      simp
  refine ⟨by rw [PatchState_eq, PatchState_eq]; exact hidem, key, ?_⟩
  intro hnn h0 hfit
  have hlen : ((expand p).length : Int) = p.Length := expand_length p hnn
  cases hr : p.Patch buffer offset with
  | none =>
    exfalso
    rw [Patch_eq_patchFlat] at hr
    obtain ⟨j, v, h1, _, h3⟩ := (patchFlat_none_iff _ _ _).1 hr
    have hj : j < (expand p).length := by
      by_contra hc
      rw [List.getElem?_eq_none (by omega)] at h1
      simp at h1
    apply h3
    constructor <;> omega
  | some out => exact ⟨out, rfl, (key out hr).2⟩

/-- An illustration of C12 on a call that panics: with a negative repeat count the first call
writes `BB` at position 0 and panics at position 1, and so does the second, leaving the same
buffer. -/
theorem PatchState_negative_repeat :
    negRepeatPattern2.PatchState [0] 0 = ([0xBB], true) ∧
    negRepeatPattern2.PatchState [0xBB] 0 = ([0xBB], true) := by
  decide

/-! ## Value tokens -/

theorem hexVal_value (c d : Nat) (h : hexVal c = some d) :
    d = hexDigitValue c ∧ d < 16 := by
  unfold hexVal at h
  unfold hexDigitValue
  by_cases h1 : 48 ≤ c ∧ c ≤ 57
  · rw [if_pos h1] at h
    simp only [Option.some.injEq] at h
    rw [if_pos h1.2]
    omega
  · rw [if_neg h1] at h
    by_cases h2 : 97 ≤ c ∧ c ≤ 102
    · rw [if_pos h2] at h
      simp only [Option.some.injEq] at h
      rw [if_neg (by omega), if_neg (by omega)]
      omega
    · rw [if_neg h2] at h
      by_cases h3 : 65 ≤ c ∧ c ≤ 70
      · rw [if_pos h3] at h
        simp only [Option.some.injEq] at h
        rw [if_neg (by omega), if_pos h3.2]
        omega
      · rw [if_neg h3] at h
        cases h

theorem ParseUint_pair_value (a b v : Nat) (h : ParseUint [a, b] = some v) :
    v = 16 * hexDigitValue a + hexDigitValue b ∧ v ≤ 255 := by
  unfold ParseUint at h
  rw [if_neg (by simp)] at h
  simp only [hexValue] at h
  cases ha : hexVal a with
  | none => simp [ha] at h
  | some x =>
    cases hb : hexVal b with
    | none => simp [ha, hb] at h
    | some y =>
      obtain ⟨ex, hx⟩ := hexVal_value a x ha
      obtain ⟨ey, hy⟩ := hexVal_value b y hb
      simp only [ha, hb] at h
      split_ifs at h with hgt
      simp only [Option.some.injEq] at h
      omega

theorem setTimesAt_values (l : List PatternEl) (i : Nat) (t : Int) :
    (setTimesAt l i t).map PatternEl.value = l.map PatternEl.value := by
  induction l generalizing i with
  | nil => rfl
  | cons a l ih =>
    cases i with
    | zero => rfl
    | succ i => simp [setTimesAt, ih]

/-- The values a successful run of the builder appends are the values of the value tokens, in
order, and every value token is well formed. -/
theorem buildLoop_values (toks : List (List Nat)) (acc out : List PatternEl) (idx : Int)
    (hshape : ∀ t ∈ toks, TokShape t) (h : buildLoop toks acc idx = (out, none)) :
    out.map PatternEl.value = acc.map PatternEl.value ++ (valueTokens toks).map tokenValue ∧
    ∀ t ∈ valueTokens toks, GoodValueToken t := by
  induction toks generalizing acc idx with
  | nil =>
    simp only [buildLoop, Prod.mk.injEq, and_true] at h
    subst h
    simp [valueTokens]
  | cons tok toks ih =>
    rw [buildLoop_cons] at h
    have hsh := hshape tok (List.mem_cons_self _ _)
    have hrest : ∀ t ∈ toks, TokShape t := fun t ht => hshape t (List.mem_cons_of_mem _ ht)
    cases hs : buildStep tok acc idx with
    | error e => simp [hs] at h
    | ok st =>
      obtain ⟨acc1, idx1⟩ := st
      simp only [hs] at h
      obtain ⟨ih1, ih2⟩ := ih acc1 idx1 hrest h
      rcases buildStep_ok_cases tok acc acc1 idx idx1 hs with
        ⟨h1, _, _, n, _, _, h6⟩ | ⟨h1, _, hv⟩
      · have hf : valueTokens (tok :: toks) = valueTokens toks := by
          simp [valueTokens, h1]
        rw [hf, ih1, h6, setTimes, setTimesAt_values]
        exact ⟨rfl, ih2⟩
      · have hf : valueTokens (tok :: toks) = tok :: valueTokens toks := by
          simp [valueTokens, h1]
        rw [hf]
        rcases hv with ⟨hw, hacc⟩ | ⟨hw, b, hp, hacc⟩
        · refine ⟨?_, ?_⟩
          · rw [ih1, hacc, hw]
            simp [tokenValue]
          · intro t ht
            simp only [List.mem_cons] at ht
            rcases ht with ht | ht
            · exact Or.inl (ht.trans hw)
            · exact ih2 t ht
        · rcases hsh with hw2 | ⟨d, hd, _⟩ | ⟨a, c, hab, _⟩
          · exact absurd hw2 hw
          · rw [hd] at h1; simp at h1
          · rw [hab] at hp hw
            obtain ⟨hx, hy⟩ := ParseUint_pair a c b hp
            obtain ⟨hval, hle⟩ := ParseUint_pair_value a c b hp
            have htv : tokenValue tok = (b : Int) := by
              rw [hab]
              unfold tokenValue
              rw [if_neg hw, hval]
            refine ⟨?_, ?_⟩
            · rw [ih1, hacc, List.map_cons, htv]
              simp
            · intro t ht
              simp only [List.mem_cons] at ht
              rcases ht with ht | ht
              · right
                refine ⟨a, c, ht.trans hab, hx, hy, ?_, ?_⟩
                · rw [ht, htv]; omega
                · rw [ht, htv]; omega
              · exact ih2 t ht

theorem bad_token_rejected (toks toks1 : List (List Nat)) (tok : List Nat)
    (hbad : ∀ acc idx st, buildStep tok acc idx ≠ Except.ok st) :
    (buildLoop (toks ++ tok :: toks1) [] (-1)).2 ≠ none := by
  cases hb : buildLoop toks [] (-1) with
  | mk out r =>
    cases r with
    | some e =>
      apply buildLoop_append_error
      rw [hb]
      simp
    | none =>
      have h0 : (-1 : Int) = (([] : List PatternEl).length : Int) - 1 := by simp
      rw [h0] at hb ⊢
      rw [buildLoop_append_ok _ _ _ _ hb, buildLoop_cons]
      cases hs : buildStep tok out ((out.length : Int) - 1) with
      | error e => simp
      | ok st => exact absurd hs (hbad _ _ _)

/-- C11. `FromHexString` returns an error for every input whose space-stripped form has, at a
value-token position, two characters that are neither `??` nor two hexadecimal digits, or that
ends with a single leftover character; and whenever `FromHexString` succeeds, the values of the
elements are, in order, the values of the value tokens: `-1` for `??`, else the number `0..255`
denoted by the two hexadecimal digits. -/
theorem FromHexString_hex_values (input : List Nat) :
    (BadValueToken (removeSpaces input) →
      ∃ e, (FromHexString input).2 = some e ∧ e ≠ ParseError.outOfFuel) ∧
    (LeftoverChar (removeSpaces input) →
      ∃ e, (FromHexString input).2 = some e ∧ e ≠ ParseError.outOfFuel) ∧
    ((FromHexString input).2 = none →
      ∃ toks, tokenize input = Except.ok toks ∧
        (FromHexString input).1.map PatternEl.value = (valueTokens toks).map tokenValue ∧
        (∀ t ∈ valueTokens toks, GoodValueToken t) ∧
        ∀ el ∈ (FromHexString input).1, el.value = -1 ∨ (0 ≤ el.value ∧ el.value ≤ 255)) := by
  have hlex := tokenize_eq_lex input
  have hfin : (FromHexString input).2 ≠ none →
      ∃ e, (FromHexString input).2 = some e ∧ e ≠ ParseError.outOfFuel := by
    intro hne
    cases hr : (FromHexString input).2 with
    | none => exact absurd hr hne
    | some e =>
      refine ⟨e, rfl, ?_⟩
      intro he
      subst he
      exact FromHexString_ne_outOfFuel input hr
  refine ⟨?_, ?_, ?_⟩
  · rintro ⟨pre, a, b, rest, h1, ⟨toks, hb⟩, ha, hq, hx⟩
    apply hfin
    obtain ⟨j, hj⟩ := lex_append _ pre (le_refl _) 0 toks hb (a :: b :: rest)
    rw [h1, hj, lex_hex _ _ _ _ ha hq] at hlex
    rcases consTok_error_iff [a, b] (lex (j + 2) rest) with ⟨e, he⟩ | ⟨toks1, _, he⟩
    · rw [he, consToks_error] at hlex
      rw [FromHexString_of_tokenize_error _ _ hlex]
      simp
    · rw [he, consToks_ok] at hlex
      rw [FromHexString_of_tokenize_ok _ _ hlex]
      apply bad_token_rejected
      intro acc idx st hs
      obtain ⟨acc1, idx1⟩ := st
      rcases buildStep_ok_cases _ _ _ _ _ hs with ⟨k1, _⟩ | ⟨_, _, hv⟩
      · simp only [List.head?_cons, Option.some.injEq] at k1
        exact ha k1
      · rcases hv with ⟨hw, _⟩ | ⟨_, v, hp, _⟩
        · simp only [List.cons.injEq, and_true] at hw
          exact hq hw
        · exact hx (ParseUint_pair a b v hp)
  · rintro ⟨pre, c, h1, ⟨toks, hb⟩⟩
    apply hfin
    obtain ⟨j, hj⟩ := lex_append _ pre (le_refl _) 0 toks hb [c]
    rw [h1, hj] at hlex
    have herr : ∃ e, lex j [c] = Except.error e := by
      rcases lex_cases j c [] with ⟨r, _, k2, _⟩ | ⟨_, _, k3⟩ | ⟨d, r, _, k2, _⟩ |
        ⟨_, _, k3⟩ | ⟨c2, r, _, _, k2, _⟩
      · cases k2
      · exact ⟨_, k3⟩
      · exfalso
        have := congrArg List.length k2
        simp at this
        omega
      · exact ⟨_, k3⟩
      · cases k2
    obtain ⟨e, he⟩ := herr
    rw [he, consToks_error] at hlex
    rw [FromHexString_of_tokenize_error _ _ hlex]
    simp
  · intro hok
    cases ht : tokenize input with
    | error e =>
      rw [FromHexString_of_tokenize_error _ _ ht] at hok
      cases hok
    | ok toks =>
      have hF := FromHexString_of_tokenize_ok _ _ ht
      rw [hlex] at ht
      obtain ⟨_, hshape⟩ := lex_shape _ _ (le_refl _) 0 toks ht
      have hbl : buildLoop toks [] (-1) = ((FromHexString input).1, none) := by
        rw [← hok, hF]
      obtain ⟨hv1, hv2⟩ := buildLoop_values toks [] _ (-1) hshape hbl
      simp only [List.map_nil, List.nil_append] at hv1
      refine ⟨toks, rfl, hv1, hv2, ?_⟩
      intro el hel
      have hmem : el.value ∈ (valueTokens toks).map tokenValue := by
        rw [← hv1]
        exact List.mem_map_of_mem _ hel
      simp only [List.mem_map] at hmem
      obtain ⟨t, ht1, ht2⟩ := hmem
      rcases hv2 t ht1 with hw | ⟨a, b, _, _, _, h5, h6⟩
      · left
        rw [← ht2, hw]
        rfl
      · right
        rw [← ht2]
        exact ⟨h5, h6⟩

/-! ## The canonical rendering -/

theorem digitChar_eq_upperHexDigit (d : Nat) (h : d < 16) : digitChar d = upperHexDigit d := by
  interval_cases d <;> rfl

theorem core_digitChar_toNat (d : Nat) (h : d < 10) : (Nat.digitChar d).toNat = digitChar d := by
  interval_cases d <;> rfl

theorem toDigitsCore_eq (f n : Nat) (ds : List Char) :
    (Nat.toDigitsCore 10 f n ds).map Char.toNat =
      (lsdDigits 10 f n).reverse.map digitChar ++ ds.map Char.toNat := by
  induction f generalizing n ds with
  | zero => simp [Nat.toDigitsCore, lsdDigits]
  | succ f ih =>
    simp only [Nat.toDigitsCore, lsdDigits]
    have hm : n % 10 < 10 := Nat.mod_lt _ (by decide)
    by_cases hlt : n < 10
    · have h0 : n / 10 = 0 := by omega
      have hmod : n % 10 = n := by omega
      rw [if_pos h0, if_pos hlt, hmod]
      simp [core_digitChar_toNat n hlt]
    · have h0 : ¬ n / 10 = 0 := by omega
      rw [if_neg h0, if_neg hlt, ih]
      simp [core_digitChar_toNat _ hm]

theorem fmtNatDec_eq_decimalText (n : Nat) : fmtNatDec n = decimalText n := by
  unfold fmtNatDec digitsOf decimalText
  have h := toDigitsCore_eq (n + 1) n []
  simp only [List.map_nil, List.append_nil] at h
  rw [← h]
  rfl

theorem elText_eq_canonicalEl (el : PatternEl)
    (hv : el.value = -1 ∨ (0 ≤ el.value ∧ el.value ≤ 255)) :
    elText el = canonicalEl el := by
  unfold elText canonicalEl
  congr 1
  · by_cases hw : el.value = -1
    · rw [if_pos hw, if_pos hw]
      rfl
    · rw [if_neg hw, if_neg hw]
      rcases hv with hv | ⟨h0, h255⟩
      · exact absurd hv hw
      · obtain ⟨n, hn⟩ := Int.eq_ofNat_of_zero_le h0
        have hlt : n < 256 := by omega
        rw [hn, fmt02X_byte n hlt, Int.toNat_ofNat,
          digitChar_eq_upperHexDigit _ (by omega),
          digitChar_eq_upperHexDigit _ (Nat.mod_lt _ (by decide))]
  · by_cases hgt : el.times > 1
    · rw [if_pos hgt, if_pos hgt, fmtDec_pos _ (by omega)]
      have e : el.times.natAbs = el.times.toNat := by omega
      rw [e, fmtNatDec_eq_decimalText]
      rfl
    · rw [if_neg hgt, if_neg hgt]

theorem flatten_sep (ts : List (List Nat)) (t : List Nat) :
    ((t :: ts).map (fun x => x ++ [32])).flatten = Join (t :: ts) [32] ++ [32] := by
  induction ts generalizing t with
  | nil => simp [Join]
  | cons b ts ih =>
    have := ih b
    simp only [List.map_cons, List.flatten_cons] at this ⊢
    rw [this]
    simp [Join]

theorem Join_head (ts : List (List Nat)) (t : List Nat) (c : Nat) (rest : List Nat)
    (h : t = c :: rest) : ∃ tail, Join (t :: ts) [32] = c :: tail := by
  cases ts with
  | nil => exact ⟨rest, by simp [Join, h]⟩
  | cons b ts => exact ⟨rest ++ [32] ++ Join (b :: ts) [32], by simp [Join, h]⟩

theorem Join_last (ts : List (List Nat)) (t : List Nat)
    (h : ∀ x ∈ t :: ts, ∃ init c, x = init ++ [c] ∧ isSpaceByte c = false) :
    ∃ init c, Join (t :: ts) [32] = init ++ [c] ∧ isSpaceByte c = false := by
  induction ts generalizing t with
  | nil =>
    obtain ⟨init, c, h1, h2⟩ := h t (List.mem_cons_self _ _)
    exact ⟨init, c, by simp [Join, h1], h2⟩
  | cons b ts ih =>
    obtain ⟨init, c, h1, h2⟩ := ih b (fun x hx => h x (List.mem_cons_of_mem _ hx))
    refine ⟨t ++ [32] ++ init, c, ?_, h2⟩
    simp only [Join]
    rw [h1]
    simp

theorem dropWhile_head (c : Nat) (l : List Nat) (h : isSpaceByte c = false) :
    (c :: l).dropWhile isSpaceByte = c :: l := by
  rw [List.dropWhile_cons, if_neg (by simp [h])]

theorem TrimSpace_sep (y : List Nat) (c : Nat) (tail : List Nat) (init : List Nat) (d : Nat)
    (h1 : y = c :: tail) (hc : isSpaceByte c = false) (h2 : y = init ++ [d])
    (hd : isSpaceByte d = false) : TrimSpace (y ++ [32]) = y := by
  unfold TrimSpace
  have e1 : (y ++ [32]).dropWhile isSpaceByte = y ++ [32] := by
    rw [h1]
    exact dropWhile_head c _ hc
  rw [e1]
  have e2 : (y ++ [32]).reverse = 32 :: d :: init.reverse := by
    rw [h2]; simp
  rw [e2, List.dropWhile_cons, if_pos (by decide), dropWhile_head d _ hd, h2]
  simp

/-- `TrimSpace` of texts written one after the other, each followed by a space, is the texts
joined by single spaces, when no text is empty or contains white space. -/
theorem TrimSpace_flatten (ts : List (List Nat))
    (h : ∀ t ∈ ts, t ≠ [] ∧ ∀ c ∈ t, isSpaceByte c = false) :
    TrimSpace (ts.map (fun x => x ++ [32])).flatten = Join ts [32] ∧
    (Join ts [32]).head? ≠ some 32 ∧ (Join ts [32]).getLast? ≠ some 32 := by
  cases ts with
  | nil => exact ⟨rfl, by simp [Join], by simp [Join]⟩
  | cons t ts =>
    obtain ⟨htne, htc⟩ := h t (List.mem_cons_self _ _)
    obtain ⟨c, rest, hcr⟩ := List.exists_cons_of_ne_nil htne
    have hcs : isSpaceByte c = false := htc c (by rw [hcr]; exact List.mem_cons_self _ _)
    obtain ⟨tail, hhead⟩ := Join_head ts t c rest hcr
    have hlast : ∀ x ∈ t :: ts, ∃ init d, x = init ++ [d] ∧ isSpaceByte d = false := by
      intro x hx
      obtain ⟨hxne, hxc⟩ := h x hx
      refine ⟨x.dropLast, x.getLast hxne, (List.dropLast_append_getLast hxne).symm, ?_⟩
      exact hxc _ (List.getLast_mem hxne)
    obtain ⟨init, d, hinit, hds⟩ := Join_last ts t hlast
    refine ⟨?_, ?_, ?_⟩
    · rw [flatten_sep]
      exact TrimSpace_sep _ c tail init d hhead hcs hinit hds
    · rw [hhead]
      simp only [List.head?_cons, ne_eq, Option.some.injEq]
      intro hc
      rw [hc] at hcs
      revert hcs; decide
    · have hl : (init ++ [d]).getLast? = some d := by simp
      rw [hinit, hl]
      simp only [ne_eq, Option.some.injEq]
      intro hc
      rw [hc] at hds
      revert hds; decide

/-- C13. For a pattern whose values are the wildcard or a byte `0..255` (and whatever its
repeat counts, in particular when they are all at least 1), `String` returns the canonical
rendering: each element as two upper-case hexadecimal digits, or `??`, followed by `[N]`
exactly when its repeat count `N` exceeds 1, the elements joined by single spaces, with no
leading or trailing space; the empty pattern renders as the empty text. -/
theorem String_canonical (p : Pattern)
    (hv : ∀ el ∈ p.elements, el.value = -1 ∨ (0 ≤ el.value ∧ el.value ≤ 255)) :
    p.String = canonical p.elements ∧
    p.String.head? ≠ some 32 ∧ p.String.getLast? ≠ some 32 ∧
    (p.elements = [] → p.String = []) := by
  have hmap : p.elements.map elText = p.elements.map canonicalEl :=
    List.map_congr_left (fun el hel => elText_eq_canonicalEl el (hv el hel))
  have hts : ∀ t ∈ p.elements.map elText, t ≠ [] ∧ ∀ c ∈ t, isSpaceByte c = false := by
    intro t htm
    simp only [List.mem_map] at htm
    obtain ⟨el, hel, rfl⟩ := htm
    constructor
    · rw [elText_eq_canonicalEl el (hv el hel)]
      unfold canonicalEl
      split_ifs <;> simp [str]
    · intro c hc
      have := elText_chars el c hc
      simp only [isSpaceByte, Bool.or_eq_false_iff, decide_eq_false_iff_not]
      omega
  have hS : p.String = TrimSpace ((p.elements.map elText).map (fun x => x ++ [32])).flatten := by
    unfold Pattern.String
    rw [foldl_render, List.nil_append, List.map_map]
    rfl
  obtain ⟨h1, h2, h3⟩ := TrimSpace_flatten (p.elements.map elText) hts
  rw [hS, h1]
  refine ⟨by rw [hmap]; rfl, h2, h3, ?_⟩
  intro he
  rw [he]
  rfl

/-- C13 witness: the pattern `"12 ??[3] FF"`. -/
theorem String_canonical_witness :
    (∀ el ∈ renderTestPattern.elements, el.value = -1 ∨ (0 ≤ el.value ∧ el.value ≤ 255)) ∧
    (∀ el ∈ renderTestPattern.elements, 1 ≤ el.times) ∧
    canonical renderTestPattern.elements = str "12 ??[3] FF" ∧
    (renderTestPattern.String = canonical renderTestPattern.elements ∧
    renderTestPattern.String.head? ≠ some 32 ∧ renderTestPattern.String.getLast? ≠ some 32 ∧
    (renderTestPattern.elements = [] → renderTestPattern.String = [])) :=
  ⟨by decide, by decide, by decide, String_canonical renderTestPattern (by decide)⟩

end BytePattern
